import Mathlib

/-!
# battleship_server.c : the player ring and the connection handler

A shallow embedding of `handle_client` (src/battleship_server.c) together with the
part of the process state it touches:

* the heap of `struct node` records, addressed by natural numbers (`none` is `NULL`),
* the globals `head` and `current`,
* the two mutexes `list_lock` and `log_file_lock`,
* the log file, as the list of lines written so far.

Every function returns `Option`: `none` stands for an execution that does not
return normally (a `NULL` or dangling pointer is dereferenced, `atoi` runs off its
array, or a mutex that is already held is locked again and the thread blocks).

An address is an index into the heap; `malloc` hands out the first index never
used before and `free` empties the cell, so a dangling pointer is never mistaken
for a live node. `insertHead` and `deleteNode` belong to linkedlist.c, which is
not among the sources; they are modelled from the specification of the registry.
`srv_cli_lock`, the socket and the timestamps are left out.
-/

namespace Battleship

/-! ## Data model -/

/-- The `struct node` of linkedlist.h as the handler uses it: the fields
`identifier`, `x_solution`, `y_solution`, `next`, `last`. Pointers are
`Option Nat`, with `none` for `NULL`. -/
structure node where
  identifier : List Nat
  x_solution : Int
  y_solution : Int
  next : Option Nat
  last : Option Nat
deriving DecidableEq, Repr

/-- The two mutexes the handler takes after it has unpacked its argument. -/
inductive Mutex where
  | list_lock
  | log_file_lock
deriving DecidableEq, Repr

/-- One line written to `log_file`; the constructor is the format string, the
arguments are the values printed (the timestamp is left out). -/
inductive Event where
  /-- line 136: "%s joined the game. His ship is located at x = %d and y = %d." -/
  | joined (identifier : List Nat) (x y : Int)
  /-- line 145: "The game now has reached the two player minimum. Its status is now active." -/
  | active
  /-- line 160: "%s tried to use the bomb command, but noone has joined the game yet!" -/
  | noone (identifier : List Nat)
  /-- line 164: "... but only one person is in the game! Minimum of 2 people are required." -/
  | only_one (identifier : List Nat)
  /-- line 190: "It's %s's turn and he bombed %s with values x = %d and y = %d." -/
  | bombed (attacker target : List Nat) (x y : Int)
  /-- line 199: "%s missed %s. It's now %s's turn." -/
  | missed (attacker target turn : List Nat)
  /-- line 215: "%s hit %s's ship! %s wins the game as he is the only remaining survivor!" -/
  | wins (attacker target winner : List Nat)
  /-- line 227: "%s hit %s's ship! %s is now out of the game. %s is now firing at %s, and it is now %s's turn." -/
  | out (attacker target dead firing at_ turn : List Nat)
  /-- line 249: "%s attempted to take a turn, but it is not his turn." -/
  | not_his_turn (identifier : List Nat)
  /-- line 256: "... but there are no other players in the game. At least 2 must join first." -/
  | no_other_players (identifier : List Nat)
deriving DecidableEq, Repr

/-- The process state `handle_client` works on. -/
structure Server where
  heap : List (Option node)
  head : Option Nat
  current : Option Nat
  list_lock : Bool
  log_file_lock : Bool
  log_file : List Event
deriving DecidableEq, Repr

/-- The state `main` sets up: no node, `head == NULL`, both mutexes free, empty log. -/
def init : Server :=
  { heap := [], head := none, current := none,
    list_lock := false, log_file_lock := false, log_file := [] }

/-! ## Memory -/

/-- The node stored at address `p`, if that address holds a live node. -/
def deref (heap : List (Option node)) (p : Nat) : Option node :=
  heap.getD p none

/-- Read through a pointer: `none` when the pointer is `NULL` or dangling. -/
def load (heap : List (Option node)) (p : Option Nat) : Option node :=
  p.bind (deref heap)

/-- Store `p->next = v`. -/
def setNext (heap : List (Option node)) (p : Nat) (v : Option Nat) : Option (List (Option node)) :=
  (deref heap p).map (fun n => heap.set p (some { n with next := v }))

/-- Store `p->last = v`. -/
def setLast (heap : List (Option node)) (p : Nat) (v : Option Nat) : Option (List (Option node)) :=
  (deref heap p).map (fun n => heap.set p (some { n with last := v }))

/-- Whether address `p` holds a live node. -/
def isLive (heap : List (Option node)) (p : Nat) : Bool :=
  (deref heap p).isSome

/-- The addresses of the live players. -/
def players (s : Server) : List Nat :=
  (List.range s.heap.length).filter (isLive s.heap)

/-- The player count `N`. -/
def count (s : Server) : Nat :=
  (players s).length

/-! ## linkedlist.c -/

/-- Modelled from the spec: linkedlist.c (which defines `insertHead`) is not among
the sources. Following the registry of the specification, `insertHead` allocates
a fresh node holding the identifier and the two coordinates, links it into the
circular doubly-linked ring between `head->last` and `head`, and makes it the new
`head`; into the empty registry it inserts a node whose `next` and `last` both
reference itself. The fresh address is the first one never used before. -/
def insertHead (s : Server) (identifier : List Nat) (x y : Int) : Option Server :=
  let p := s.heap.length
  match s.head with
  | none =>
    some { s with
      heap := s.heap ++ [some ⟨identifier, x, y, some p, some p⟩],
      head := some p }
  | some h => do
    let hn ← deref s.heap h
    let l ← hn.last
    let heap1 := s.heap ++ [some ⟨identifier, x, y, some h, some l⟩]
    let heap2 ← setNext heap1 l (some p)
    let heap3 ← setLast heap2 h (some p)
    pure { s with heap := heap3, head := some p }

/-- Modelled from the spec: linkedlist.c (which defines `deleteNode`) is not among
the sources. Following the registry of the specification, `deleteNode` unlinks
its argument from the ring (its two neighbours are linked to each other) and
frees it; since `head` must be the empty marker when no player is left and
reference a live player otherwise, removing the node `head` points to moves
`head` to its successor, and removing the only node sets `head` to `NULL`. -/
def deleteNode (s : Server) (p : Option Nat) : Option Server := do
  let a ← p
  let n ← deref s.heap a
  let nx ← n.next
  let la ← n.last
  if nx = a then
    pure { s with heap := s.heap.set a none, head := none }
  else
    let heap1 ← setNext s.heap la (some nx)
    let heap2 ← setLast heap1 nx (some la)
    pure { s with
      heap := heap2.set a none,
      head := if s.head = some a then some nx else s.head }

/-! ## libc -/

/-- The first `n` cells of the destination after `strncpy(dst, src, n)`: the
characters of `src` up to its terminator, then NUL padding. A list stands for a
C string whose terminator is the first 0 or the end of the list. -/
def strncpy : List Nat → Nat → List Nat
  | _, 0 => []
  | [], n + 1 => List.replicate (n + 1) 0
  | c :: cs, n + 1 => if c = 0 then List.replicate (n + 1) 0 else c :: strncpy cs n

/-- Whether `strncmp(a, b, n) == 0`: the strings agree on their first `n`
characters, or up to a common terminator before that. -/
def strncmp : List Nat → List Nat → Nat → Bool
  | _, _, 0 => true
  | a, b, n + 1 =>
    if a.headD 0 ≠ b.headD 0 then false
    else if a.headD 0 = 0 then true
    else strncmp a.tail b.tail n

/-- The C `isspace` in the "C" locale. -/
def isspace (c : Nat) : Bool := c = 32 || (9 ≤ c && c ≤ 13)

/-- The C `isdigit`. -/
def isdigit (c : Nat) : Bool := 48 ≤ c && c ≤ 57

/-- The digit loop of `atoi` over the remaining cells of the array; `none` when
the scan reaches the end of the array without meeting a non-digit. -/
def atoi_digits : List Nat → Nat → Option Nat
  | [], _ => none
  | c :: cs, acc => if isdigit c then atoi_digits cs (acc * 10 + (c - 48)) else some acc

/-- The part of `atoi` after the leading white space: an optional sign, then digits. -/
def atoi_signed : List Nat → Option Int
  | [] => none
  | c :: cs =>
    if c = 45 then (atoi_digits cs 0).map (fun n => - (n : Int))
    else if c = 43 then (atoi_digits cs 0).map (fun n => (n : Int))
    else (atoi_digits (c :: cs) 0).map (fun n => (n : Int))

/-- The C `atoi` applied to a character array given by its cells. The arrays the
handler passes have 9 cells, so at most 9 digits are read and the value fits an
`int`. -/
def atoi : List Nat → Option Int
  | [] => none
  | c :: cs => if isspace c then atoi cs else atoi_signed (c :: cs)

/-- `pthread_mutex_lock`: the calling thread blocks when the mutex is held. -/
def pthread_mutex_lock (s : Server) : Mutex → Option Server
  | .list_lock => if s.list_lock then none else some { s with list_lock := true }
  | .log_file_lock => if s.log_file_lock then none else some { s with log_file_lock := true }

/-- `pthread_mutex_unlock`. -/
def pthread_mutex_unlock (s : Server) : Mutex → Server
  | .list_lock => { s with list_lock := false }
  | .log_file_lock => { s with log_file_lock := false }

/-- `fprintf(log_file, ...)`. -/
def fprintf (s : Server) (e : Event) : Server :=
  { s with log_file := s.log_file ++ [e] }

/-! ## handle_client -/

/-- The string literal "JOIN". -/
def JOIN : List Nat := [74, 79, 73, 78]

/-- The string literal "BOMB". -/
def BOMB : List Nat := [66, 79, 77, 66]

/-- Lines 116-119 and 173-176: `for (j = 4; j < 12; j++) { x_val[x] = bbuffer[j]; x++; }`
with `x` starting at 0. The arrays are lists of cells; a cell of `bbuffer` the
list does not have reads as NUL. -/
def copy_x (bbuffer x_val : List Nat) : List Nat :=
  ((List.range' 4 8).foldl
    (fun (st : List Nat × Nat) j => (st.1.set st.2 (bbuffer.getD j 0), st.2 + 1))
    (x_val, 0)).1

/-- Lines 120-123 and 177-180: `x = 0; for (j = 12; j < 20; j++) { y_val[x] = bbuffer[j]; }`;
the index `x` is not advanced. -/
def copy_y (bbuffer y_val : List Nat) : List Nat :=
  (List.range' 12 8).foldl (fun yv j => yv.set 0 (bbuffer.getD j 0)) y_val

/-- Lines 114-125 and 171-182: the two integers the handler computes from the
message and its scratch arrays, `(x_val_int, y_val_int)`. -/
def operands (bbuffer x_val y_val : List Nat) : Option (Int × Int) := do
  let x_val_int ← atoi (copy_x bbuffer x_val)
  let y_val_int ← atoi (copy_y bbuffer y_val)
  pure (x_val_int, y_val_int)

/-- Lines 129-132: the coordinates handed to `insertHead`. -/
def solution (x_val_int y_val_int : Int) (r1 r2 : Nat) : Int × Int :=
  if x_val_int = 0 ∧ y_val_int = 0 then
    ((r1 : Int) % (10 + 1 - 1) + 1, (r2 : Int) % (10 + 1 - 1) + 1)
  else (x_val_int, y_val_int)

/-- Lines 141-149: the test `head->next != head && head->next->next == head`
and, when it holds, `current = head->last` and the "now active" line. -/
def activate (s : Server) : Option Server := do
  let hn ← load s.heap s.head
  let two ← if hn.next ≠ s.head then (load s.heap hn.next).map (fun n1 => decide (n1.next = s.head))
            else some false
  if two then
    let s := { s with current := hn.last }
    let s ← pthread_mutex_lock s .log_file_lock
    let s := fprintf s .active
    pure (pthread_mutex_unlock s .log_file_lock)
  else pure s

/-- Lines 112-150: the JOIN branch. `r1` and `r2` are the values the two calls of
`rand()` return when they are made. -/
def join (s : Server) (identifier bbuffer x_val y_val : List Nat) (r1 r2 : Nat) :
    Option Server := do
  let s ← pthread_mutex_lock s .list_lock
  let (x_val_int, y_val_int) ← operands bbuffer x_val y_val
  let xy := solution x_val_int y_val_int r1 r2
  let s ← insertHead s identifier xy.1 xy.2
  let s ← pthread_mutex_lock s .log_file_lock
  let s := fprintf s (.joined identifier xy.1 xy.2)
  let s := pthread_mutex_unlock s .log_file_lock
  let s ← activate s
  pure (pthread_mutex_unlock s .list_lock)

/-- Lines 169-245: the turn of the player `current`, whose node is `cn`. -/
def turn (s : Server) (cn : node) (bbuffer x_val y_val : List Nat) : Option Server := do
  let (x_val_int, y_val_int) ← operands bbuffer x_val y_val
  let tn ← load s.heap cn.next
  let hit := decide (x_val_int = tn.x_solution ∧ y_val_int = tn.y_solution)
  let s := fprintf s (.bombed cn.identifier tn.identifier x_val_int y_val_int)
  if hit = false then
    let s ← pthread_mutex_lock s .log_file_lock
    let s := fprintf s (.missed cn.identifier tn.identifier tn.identifier)
    let s := pthread_mutex_unlock s .log_file_lock
    pure { s with current := cn.next }
  else if tn.next = s.current then
    let s ← pthread_mutex_lock s .log_file_lock
    let s := fprintf s (.wins cn.identifier tn.identifier cn.identifier)
    pure (pthread_mutex_unlock s .log_file_lock)
  else
    let s ← pthread_mutex_lock s .log_file_lock
    let nn ← load s.heap tn.next
    let s := fprintf s
      (.out cn.identifier tn.identifier tn.identifier cn.identifier nn.identifier nn.identifier)
    let s := pthread_mutex_unlock s .log_file_lock
    let s := { s with current := tn.next }
    let cn2 ← load s.heap s.current
    deleteNode s cn2.last

/-- Lines 156-260: the BOMB branch. -/
def bomb (s : Server) (identifier bbuffer x_val y_val : List Nat) : Option Server := do
  let s ← pthread_mutex_lock s .list_lock
  let s ←
    if s.head = none then do
      let s ← pthread_mutex_lock s .log_file_lock
      let s := fprintf s (.noone identifier)
      pure (pthread_mutex_unlock s .log_file_lock)
    else do
      let hn ← load s.heap s.head
      if hn.next = none then
        let s ← pthread_mutex_lock s .log_file_lock
        let s := fprintf s (.only_one identifier)
        pure (pthread_mutex_unlock s .log_file_lock)
      else if hn.next ≠ s.head then
        let cn ← load s.heap s.current
        if strncmp cn.identifier identifier 4 then
          turn s cn bbuffer x_val y_val
        else
          let s ← pthread_mutex_lock s .log_file_lock
          let s := fprintf s (.not_his_turn identifier)
          pure (pthread_mutex_unlock s .log_file_lock)
      else
        let s ← pthread_mutex_lock s .log_file_lock
        pure (fprintf s (.no_other_players identifier))
  pure (pthread_mutex_unlock s .list_lock)

/-- Lines 90-267: `handle_client`, from the point where the argument has been
unpacked and the message received. `client_identifier` is the string
`info->client_identifier`, `bbuffer` the content of the receive buffer after
`recv`, `x_val` and `y_val` the content the two scratch arrays happen to have on
entry, `r1` and `r2` the next two results of `rand()`. -/
def handle_client (s : Server) (client_identifier bbuffer x_val y_val : List Nat)
    (r1 r2 : Nat) : Option Server :=
  let identifier := strncpy client_identifier 4
  if strncmp bbuffer JOIN 4 then join s identifier bbuffer x_val y_val r1 r2
  else if strncmp bbuffer BOMB 4 then bomb s identifier bbuffer x_val y_val
  else some s

/-- One received connection: everything `handle_client` reads besides the
process state. -/
structure Input where
  client_identifier : List Nat
  bbuffer : List Nat
  x_val : List Nat
  y_val : List Nat
  r1 : Nat
  r2 : Nat
deriving DecidableEq, Repr

/-- Apply `handle_client` to one connection. -/
def step (s : Server) (i : Input) : Option Server :=
  handle_client s i.client_identifier i.bbuffer i.x_val i.y_val i.r1 i.r2

/-- Handle a sequence of connections one at a time. -/
def run (s : Server) : List Input → Option Server
  | [] => some s
  | i :: is => (step s i).bind (fun s1 => run s1 is)

/-! ## The ring -/

/-- The value of `p->next`, when `p` holds a live node. -/
def nextOf (heap : List (Option node)) (p : Nat) : Option Nat :=
  (deref heap p).bind (fun n => n.next)

/-- The value of `p->last`, when `p` holds a live node. -/
def lastOf (heap : List (Option node)) (p : Nat) : Option Nat :=
  (deref heap p).bind (fun n => n.last)

/-- The address reached from `p` by following `next` `k` times. -/
def walk (heap : List (Option node)) (p : Nat) : Nat → Option Nat
  | 0 => some p
  | k + 1 => (nextOf heap p).bind (fun q => walk heap q k)

/-- The first `k` addresses met when following `next` from `p` (`p` itself first);
the list is shorter when the traversal hits `NULL` or a dead node. -/
def ringFrom (heap : List (Option node)) (p : Nat) : Nat → List Nat
  | 0 => []
  | k + 1 => p :: (match nextOf heap p with
                   | some q => ringFrom heap q k
                   | none => [])

/-- Two neighbours in the ring: `a->next == b` and `b->last == a`. -/
def Link (heap : List (Option node)) (a b : Nat) : Prop :=
  nextOf heap a = some b ∧ lastOf heap b = some a

instance (heap : List (Option node)) : DecidableRel (Link heap) :=
  fun a b => inferInstanceAs (Decidable (nextOf heap a = some b ∧ lastOf heap b = some a))

/-- A check that each address of a list is linked to the one after it. -/
def linked (heap : List (Option node)) : List Nat → Bool
  | a :: b :: t => decide (Link heap a b) && linked heap (b :: t)
  | _ => true

/-- The addresses `r`, in this order, are linked into one cycle: each one to the
next, and the last one back to the first. -/
def Cyc (heap : List (Option node)) (r : List Nat) : Prop :=
  linked heap (r ++ r.take 1) = true

instance (heap : List (Option node)) (r : List Nat) : Decidable (Cyc heap r) :=
  inferInstanceAs (Decidable (linked heap (r ++ r.take 1) = true))

/-- The live nodes of the heap are exactly the addresses `r`, without repetition,
and they are linked into one ring in the order of `r`. -/
structure Ring (heap : List (Option node)) (r : List Nat) : Prop where
  nodup : r.Nodup
  live : ∀ p ∈ r, isLive heap p = true
  all : ∀ p < heap.length, isLive heap p = true → p ∈ r
  cyc : Cyc heap r

instance (heap : List (Option node)) (r : List Nat) : Decidable (Ring heap r) :=
  decidable_of_iff
    (r.Nodup ∧ (∀ p ∈ r, isLive heap p = true) ∧
      (∀ p < heap.length, isLive heap p = true → p ∈ r) ∧ Cyc heap r)
    ⟨fun h => ⟨h.1, h.2.1, h.2.2.1, h.2.2.2⟩, fun h => ⟨h.nodup, h.live, h.all, h.cyc⟩⟩

/-- The ring as read off the heap: the traversal of `next` from `head`, as many
steps as there are live nodes. -/
def ring (s : Server) : List Nat :=
  match s.head with
  | none => []
  | some h => ringFrom s.heap h (count s)

/-- Well-formed registry: the live nodes form one ring, which the traversal from
`head` enumerates (`head` is `NULL` exactly when there is no player), and with
two or more players `current` points into the ring. -/
def Inv (s : Server) : Prop :=
  Ring s.heap (ring s) ∧ (s.head = (ring s).head?) ∧
    (2 ≤ count s → ∃ c ∈ ring s, s.current = some c)

instance (s : Server) : Decidable (Inv s) :=
  inferInstanceAs (Decidable (Ring s.heap (ring s) ∧ (s.head = (ring s).head?) ∧
    (2 ≤ count s → ∃ c ∈ ring s, s.current = some c)))

/-! ## The payload of a node -/

/-- The identifier and the coordinates stored at address `p`. -/
def dataOf (heap : List (Option node)) (p : Nat) : Option (List Nat × Int × Int) :=
  (deref heap p).map (fun n => (n.identifier, n.x_solution, n.y_solution))

/-! ## Provenance of a payload -/

/-- Where the payload of a node can come from after one connection. -/
def Origin (s : Server) (i : Input) (q : Nat) (d : List Nat × Int × Int) : Prop :=
  dataOf s.heap q = some d ∨
    (strncmp i.bbuffer JOIN 4 = true ∧
      ∃ x y, operands i.bbuffer i.x_val i.y_val = some (x, y) ∧
        d = (strncpy i.client_identifier 4,
             (solution x y i.r1 i.r2).1, (solution x y i.r1 i.r2).2))

/-! ## Concrete messages and registries -/

/-- The eight ASCII decimal digits of `n`, most significant first. -/
def field (n : Nat) : List Nat :=
  (List.range 8).reverse.map (fun k => 48 + (n / 10 ^ k) % 10)

/-- The 20-byte frame for a command and two operands. -/
def frame (command : List Nat) (x y : Nat) : List Nat :=
  command ++ field x ++ field y

/-- Scratch arrays holding nine NUL bytes. -/
def zeros : List Nat := List.replicate 9 0

/-- The identifier "AAAA". -/
def AAAA : List Nat := [65, 65, 65, 65]

/-- The identifier "BBBB". -/
def BBBB : List Nat := [66, 66, 66, 66]

/-- The identifier "CCCC". -/
def CCCC : List Nat := [67, 67, 67, 67]

/-- Three players A(1,1), B(2,2), C(3,3) linked A -> B -> C -> A, with `current`
at A (so the target is B) and `head` at C, as left by JOIN B, JOIN A, JOIN C and
two missed bombs. -/
def three : Server :=
  { heap := [some ⟨BBBB, 2, 2, some 2, some 1⟩,
             some ⟨AAAA, 1, 1, some 0, some 2⟩,
             some ⟨CCCC, 3, 3, some 1, some 0⟩],
    head := some 2, current := some 1,
    list_lock := false, log_file_lock := false, log_file := [] }

/-- Two players AAAA(3,4) and BBBB(5,6), as left by JOIN AAAA then JOIN BBBB:
`current` is AAAA. -/
def two : Server :=
  { heap := [some ⟨AAAA, 3, 4, some 1, some 1⟩,
             some ⟨BBBB, 5, 6, some 0, some 0⟩],
    head := some 1, current := some 0,
    list_lock := false, log_file_lock := false, log_file := [] }

/-- One player AAAA(3,4), as left by JOIN AAAA. -/
def one : Server :=
  { heap := [some ⟨AAAA, 3, 4, some 0, some 0⟩],
    head := some 0, current := none,
    list_lock := false, log_file_lock := false, log_file := [] }

/-- The two connections JOIN AAAA(3,4) then BOMB from AAAA, the only player. -/
def lonely_bomb : List Input :=
  [⟨AAAA, frame JOIN 3 4, zeros, zeros, 0, 0⟩,
   ⟨AAAA, frame BOMB 1 1, zeros, zeros, 0, 0⟩]

/-- The state after `lonely_bomb`: AAAA alone in the ring, `list_lock` free and
`log_file_lock` still held by the handler of the BOMB, which has returned. -/
def leaked : Server :=
  { heap := [some ⟨AAAA, 3, 4, some 0, some 0⟩],
    head := some 0, current := none,
    list_lock := false, log_file_lock := true,
    log_file := [.joined AAAA 3 4, .no_other_players AAAA] }

/-- A game of six connections: B, A and C join, B and C miss, A hits B. -/
def game : List Input :=
  [⟨BBBB, frame JOIN 2 2, zeros, zeros, 0, 0⟩,
   ⟨AAAA, frame JOIN 1 1, zeros, zeros, 0, 0⟩,
   ⟨CCCC, frame JOIN 3 3, zeros, zeros, 0, 0⟩,
   ⟨BBBB, frame BOMB 9 9, zeros, zeros, 0, 0⟩,
   ⟨CCCC, frame BOMB 9 9, zeros, zeros, 0, 0⟩,
   ⟨AAAA, frame BOMB 2 2, zeros, zeros, 0, 0⟩]

/-- The state after `game`: B is gone, A and C remain, it is the turn of C. -/
def game_over : Server :=
  { heap := [none,
             some ⟨AAAA, 1, 1, some 2, some 2⟩,
             some ⟨CCCC, 3, 3, some 1, some 1⟩],
    head := some 2, current := some 2,
    list_lock := false, log_file_lock := false,
    log_file := [.joined BBBB 2 2, .joined AAAA 1 1, .active, .joined CCCC 3 3,
                 .bombed BBBB CCCC 9 9, .missed BBBB CCCC CCCC,
                 .bombed CCCC AAAA 9 9, .missed CCCC AAAA AAAA,
                 .bombed AAAA BBBB 2 2, .out AAAA BBBB BBBB AAAA CCCC CCCC] }

/-! ## Coordinates -/

/-- Every stored coordinate pair lies in `[1,10] x [1,10]`. -/
def Ranged (s : Server) : Prop :=
  ∀ q identifier X Y, dataOf s.heap q = some (identifier, X, Y) →
    1 ≤ X ∧ X ≤ 10 ∧ 1 ≤ Y ∧ Y ≤ 10

/-- The decoded operands of a message are both zero or both in `[1,10]` (a
message whose operands do not decode is not restricted). -/
def operandsInRange : Option (Int × Int) → Bool
  | some (x, y) =>
    (decide (x = 0) && decide (y = 0)) ||
      (decide (1 ≤ x) && decide (x ≤ 10) && decide (1 ≤ y) && decide (y ≤ 10))
  | none => true

/-- Every JOIN among the connections has operands that are both zero or both in
`[1,10]`. -/
def JoinsInRange (is : List Input) : Prop :=
  ∀ i ∈ is, strncmp i.bbuffer JOIN 4 = true →
    operandsInRange (operands i.bbuffer i.x_val i.y_val) = true

instance (is : List Input) : Decidable (JoinsInRange is) :=
  inferInstanceAs (Decidable (∀ i ∈ is, strncmp i.bbuffer JOIN 4 = true →
    operandsInRange (operands i.bbuffer i.x_val i.y_val) = true))

/-! # Proofs -/

/-! ## Heap lemmas -/

theorem linked_iff (heap : List (Option node)) :
    ∀ l : List Nat, linked heap l = true ↔ List.Chain' (Link heap) l
  | [] => by simp [linked]
  | [a] => by simp [linked]
  | a :: b :: t => by
    rw [List.chain'_cons, ← linked_iff heap (b :: t)]
    simp [linked]

theorem Cyc_iff_chain {heap : List (Option node)} {r : List Nat} :
    Cyc heap r ↔ List.Chain' (Link heap) (r ++ r.take 1) :=
  linked_iff heap _

theorem deref_lt {heap : List (Option node)} {p : Nat} {n : node}
    (h : deref heap p = some n) : p < heap.length := by
  by_contra hc
  have : heap[p]? = none := List.getElem?_eq_none (Nat.le_of_not_lt hc)
  simp [deref, List.getD_eq_getElem?_getD, this] at h

theorem deref_set (heap : List (Option node)) (p q : Nat) (v : Option node)
    (hp : p < heap.length) :
    deref (heap.set p v) q = if q = p then v else deref heap q := by
  unfold deref
  simp only [List.getD_eq_getElem?_getD, List.getElem?_set]
  by_cases h : p = q
  · subst h; simp [hp]
  · have h2 : ¬ q = p := fun e => h e.symm
    simp [h, h2]

theorem deref_append (heap : List (Option node)) (q : Nat) (v : Option node) :
    deref (heap ++ [v]) q = if q = heap.length then v else deref heap q := by
  unfold deref
  simp only [List.getD_eq_getElem?_getD, List.getElem?_append]
  by_cases h : q < heap.length
  · have : ¬ q = heap.length := by omega
    simp [h, this]
  · by_cases h2 : q = heap.length
    · subst h2; simp
    · have h3 : heap.length ≤ q := by omega
      have h4 : 1 ≤ q - heap.length := by omega
      simp [h, h2, List.getElem?_eq_none h3, List.getElem?_eq_none (l := [v]) (by simpa using h4)]

theorem isLive_lt {heap : List (Option node)} {p : Nat} (h : isLive heap p = true) :
    p < heap.length := by
  unfold isLive at h
  obtain ⟨n, hn⟩ := Option.isSome_iff_exists.mp h
  exact deref_lt hn

theorem isLive_iff {heap : List (Option node)} {p : Nat} :
    isLive heap p = true ↔ ∃ n, deref heap p = some n := by
  unfold isLive; exact Option.isSome_iff_exists

/-! ## Frame lemmas for the three kinds of store -/

theorem nextOf_setn {heap : List (Option node)} {p : Nat} {n : node} (v : Option Nat)
    (hp : deref heap p = some n) (q : Nat) :
    nextOf (heap.set p (some { n with next := v })) q = if q = p then v else nextOf heap q := by
  unfold nextOf
  rw [deref_set _ _ _ _ (deref_lt hp)]
  by_cases h : q = p <;> simp [h]

theorem lastOf_setn {heap : List (Option node)} {p : Nat} {n : node} (v : Option Nat)
    (hp : deref heap p = some n) (q : Nat) :
    lastOf (heap.set p (some { n with next := v })) q = lastOf heap q := by
  unfold lastOf
  rw [deref_set _ _ _ _ (deref_lt hp)]
  by_cases h : q = p
  · subst h; simp [hp]
  · simp [h]

theorem nextOf_setl {heap : List (Option node)} {p : Nat} {n : node} (v : Option Nat)
    (hp : deref heap p = some n) (q : Nat) :
    nextOf (heap.set p (some { n with last := v })) q = nextOf heap q := by
  unfold nextOf
  rw [deref_set _ _ _ _ (deref_lt hp)]
  by_cases h : q = p
  · subst h; simp [hp]
  · simp [h]

theorem lastOf_setl {heap : List (Option node)} {p : Nat} {n : node} (v : Option Nat)
    (hp : deref heap p = some n) (q : Nat) :
    lastOf (heap.set p (some { n with last := v })) q = if q = p then v else lastOf heap q := by
  unfold lastOf
  rw [deref_set _ _ _ _ (deref_lt hp)]
  by_cases h : q = p <;> simp [h]

theorem nextOf_free {heap : List (Option node)} {p : Nat} (hp : p < heap.length) (q : Nat) :
    nextOf (heap.set p none) q = if q = p then none else nextOf heap q := by
  unfold nextOf
  rw [deref_set _ _ _ _ hp]
  by_cases h : q = p <;> simp [h]

theorem lastOf_free {heap : List (Option node)} {p : Nat} (hp : p < heap.length) (q : Nat) :
    lastOf (heap.set p none) q = if q = p then none else lastOf heap q := by
  unfold lastOf
  rw [deref_set _ _ _ _ hp]
  by_cases h : q = p <;> simp [h]

theorem nextOf_append (heap : List (Option node)) (m : node) (q : Nat) :
    nextOf (heap ++ [some m]) q = if q = heap.length then m.next else nextOf heap q := by
  unfold nextOf
  rw [deref_append]
  by_cases h : q = heap.length <;> simp [h]

theorem lastOf_append (heap : List (Option node)) (m : node) (q : Nat) :
    lastOf (heap ++ [some m]) q = if q = heap.length then m.last else lastOf heap q := by
  unfold lastOf
  rw [deref_append]
  by_cases h : q = heap.length <;> simp [h]

/-! ## Chains of links -/

theorem chain_frame {R S : Nat → Nat → Prop} :
    ∀ {l : List Nat}, List.Chain' R l →
      (∀ x y, x ∈ l.dropLast → y ∈ l.tail → R x y → S x y) → List.Chain' S l
  | [], _, _ => List.chain'_nil
  | [a], _, _ => List.chain'_singleton a
  | a :: b :: t, h, H => by
    rw [List.chain'_cons] at h ⊢
    refine ⟨H a b (by simp) (by simp) h.1, chain_frame h.2 ?_⟩
    intro x y hx hy hr
    refine H x y ?_ ?_ hr
    · simp only [List.dropLast_cons₂, List.mem_cons]
      exact Or.inr hx
    · simp only [List.tail_cons, List.mem_cons]
      exact Or.inr hy

theorem not_mem_dropLast_of_nodup {l : List Nat} (hl : l.Nodup) (hne : l ≠ []) :
    l.getLast hne ∉ l.dropLast := by
  intro hmem
  have e := List.dropLast_append_getLast hne
  rw [← e] at hl
  have := (List.nodup_append.mp hl).2.2
  exact this hmem (by simp)

theorem not_mem_tail_of_nodup {a : Nat} {t : List Nat} (hl : (a :: t).Nodup) : a ∉ t :=
  (List.nodup_cons.mp hl).1

/-- A cycle may be read from any of its members. -/
theorem Cyc.shift {heap : List (Option node)} {pre post : List Nat}
    (h : Cyc heap (pre ++ post)) : Cyc heap (post ++ pre) := by
  cases pre with
  | nil => simpa using h
  | cons a pre =>
    cases post with
    | nil => simpa using h
    | cons b post =>
      rw [Cyc_iff_chain] at h ⊢
      have h1 : List.Chain' (Link heap) ((a :: pre) ++ b :: (post ++ [a])) := by
        simpa using h
      rw [List.chain'_split] at h1
      have goal : List.Chain' (Link heap) ((b :: post) ++ a :: (pre ++ [b])) := by
        rw [List.chain'_split]
        exact ⟨by simpa using h1.2, by simpa using h1.1⟩
      simpa using goal

theorem Ring.rotate {heap : List (Option node)} {pre post : List Nat}
    (h : Ring heap (pre ++ post)) : Ring heap (post ++ pre) where
  nodup := (List.perm_append_comm.nodup_iff).mp h.nodup
  live := fun p hp => h.live p (by
    rcases List.mem_append.mp hp with h1 | h1
    · exact List.mem_append.mpr (Or.inr h1)
    · exact List.mem_append.mpr (Or.inl h1))
  all := fun p hp hl => by
    rcases List.mem_append.mp (h.all p hp hl) with h1 | h1
    · exact List.mem_append.mpr (Or.inr h1)
    · exact List.mem_append.mpr (Or.inl h1)
  cyc := h.cyc.shift

/-- Every member of a ring can be taken as its first element. -/
theorem Ring.startAt {heap : List (Option node)} {r : List Nat} (h : Ring heap r)
    {p : Nat} (hp : p ∈ r) :
    ∃ t, Ring heap (p :: t) ∧ (p :: t).Perm r ∧ (p :: t).length = r.length := by
  obtain ⟨pre, post, e⟩ := List.append_of_mem hp
  subst e
  refine ⟨post ++ pre, ?_, ?_, ?_⟩
  · simpa using h.rotate
  · have : ((p :: post) ++ pre).Perm (pre ++ p :: post) := List.perm_append_comm
    simpa using this
  · simp; omega

/-- Following `next` along a chain of links enumerates the chain. -/
theorem ringFrom_chain {heap : List (Option node)} :
    ∀ (t : List Nat) (a c : Nat), List.Chain' (Link heap) (a :: t ++ [c]) →
      ringFrom heap a (t.length + 1) = a :: t ∧ walk heap a (t.length + 1) = some c
  | [], a, c, h => by
    have hl : Link heap a c := by simpa using h
    simp [ringFrom, walk, hl.1]
  | b :: t, a, c, h => by
    have h1 : List.Chain' (Link heap) (a :: b :: (t ++ [c])) := by simpa using h
    rw [List.chain'_cons] at h1
    have ih := ringFrom_chain t b c (by simpa using h1.2)
    have hn : nextOf heap a = some b := h1.1.1
    constructor
    · show ringFrom heap a ((t.length + 1) + 1) = a :: b :: t
      simp only [ringFrom, hn]
      rw [← ih.1]
      simp [ringFrom]
    · show walk heap a ((t.length + 1) + 1) = some c
      simp only [walk, hn, Option.some_bind]
      exact ih.2

/-- The number of live nodes is the length of the ring. -/
theorem Ring.perm_players {s : Server} {r : List Nat} (h : Ring s.heap r) :
    r.Perm (players s) := by
  refine (List.perm_ext_iff_of_nodup h.nodup ((List.nodup_range _).filter _)).mpr ?_
  intro a
  rw [List.mem_filter, List.mem_range]
  constructor
  · intro ha
    exact ⟨isLive_lt (h.live a ha), h.live a ha⟩
  · intro ha
    exact h.all a ha.1 ha.2

theorem Ring.length_eq {s : Server} {r : List Nat} (h : Ring s.heap r) :
    r.length = count s :=
  h.perm_players.length_eq

theorem Ring.mem_iff {heap : List (Option node)} {r : List Nat} (h : Ring heap r) (p : Nat) :
    p ∈ r ↔ isLive heap p = true :=
  ⟨h.live p, fun hl => h.all p (isLive_lt hl) hl⟩

/-! ## The payload of a node under stores -/

theorem dataOf_setn {heap : List (Option node)} {p : Nat} {n : node} (v : Option Nat)
    (hp : deref heap p = some n) (q : Nat) :
    dataOf (heap.set p (some { n with next := v })) q = dataOf heap q := by
  unfold dataOf
  rw [deref_set _ _ _ _ (deref_lt hp)]
  by_cases h : q = p
  · subst h; simp [hp]
  · simp [h]

theorem dataOf_setl {heap : List (Option node)} {p : Nat} {n : node} (v : Option Nat)
    (hp : deref heap p = some n) (q : Nat) :
    dataOf (heap.set p (some { n with last := v })) q = dataOf heap q := by
  unfold dataOf
  rw [deref_set _ _ _ _ (deref_lt hp)]
  by_cases h : q = p
  · subst h; simp [hp]
  · simp [h]

theorem dataOf_free {heap : List (Option node)} {p : Nat} (hp : p < heap.length) (q : Nat) :
    dataOf (heap.set p none) q = if q = p then none else dataOf heap q := by
  unfold dataOf
  rw [deref_set _ _ _ _ hp]
  by_cases h : q = p <;> simp [h]

theorem dataOf_append (heap : List (Option node)) (m : node) (q : Nat) :
    dataOf (heap ++ [some m]) q =
      if q = heap.length then some (m.identifier, m.x_solution, m.y_solution)
      else dataOf heap q := by
  unfold dataOf
  rw [deref_append]
  by_cases h : q = heap.length <;> simp [h]

theorem isLive_eq_dataOf (heap : List (Option node)) (q : Nat) :
    isLive heap q = (dataOf heap q).isSome := by
  unfold isLive dataOf
  cases deref heap q <;> rfl

/-! ## insertHead and deleteNode on the heap -/

/-- The effect of `insertHead` on a non-empty registry, field by field. -/
theorem insertHead_some {s : Server} {h l : Nat} {hn ln : node}
    (identifier : List Nat) (x y : Int)
    (hh : s.head = some h) (hhn : deref s.heap h = some hn) (hl : hn.last = some l)
    (hln : deref s.heap l = some ln) :
    ∃ heap3, insertHead s identifier x y
        = some { s with heap := heap3, head := some s.heap.length } ∧
      heap3.length = s.heap.length + 1 ∧
      (∀ q, nextOf heap3 q = if q = l then some s.heap.length
        else if q = s.heap.length then some h else nextOf s.heap q) ∧
      (∀ q, lastOf heap3 q = if q = h then some s.heap.length
        else if q = s.heap.length then some l else lastOf s.heap q) ∧
      (∀ q, dataOf heap3 q = if q = s.heap.length then some (identifier, x, y)
        else dataOf s.heap q) := by
  have hlt : l < s.heap.length := deref_lt hln
  have hht : h < s.heap.length := deref_lt hhn
  have hlne : ¬ l = s.heap.length := by omega
  have hhne : ¬ h = s.heap.length := by omega
  -- the three heaps
  let m : node := ⟨identifier, x, y, some h, some l⟩
  have d1 : deref (s.heap ++ [some m]) l = some ln := by
    rw [deref_append]; simp [hlne, hln]
  let heap2 := (s.heap ++ [some m]).set l (some { ln with next := some s.heap.length })
  have hd2 : ∃ hn2, deref heap2 h = some hn2 := by
    show ∃ hn2, deref ((s.heap ++ [some m]).set l _) h = some hn2
    rw [deref_set _ _ _ _ (deref_lt d1), deref_append]
    by_cases e : h = l
    · simp [e]
    · simp [e, hhne, hhn]
  obtain ⟨hn2, d2⟩ := hd2
  refine ⟨heap2.set h (some { hn2 with last := some s.heap.length }), ?_, ?_, ?_, ?_, ?_⟩
  · unfold insertHead
    simp only [hh, hhn, hl, Option.bind_eq_bind, Option.some_bind, Option.pure_def]
    have e1 : setNext (s.heap ++ [some m]) l (some s.heap.length) = some heap2 := by
      unfold setNext; rw [d1]; rfl
    have e2 : setLast heap2 h (some s.heap.length)
        = some (heap2.set h (some { hn2 with last := some s.heap.length })) := by
      unfold setLast; rw [d2]; rfl
    show (setNext (s.heap ++ [some m]) l (some s.heap.length)).bind _ = _
    rw [e1, Option.some_bind]
    show (setLast heap2 h (some s.heap.length)).bind _ = _
    rw [e2, Option.some_bind]
  · simp [heap2]
  · intro q
    rw [nextOf_setl _ d2]
    show nextOf ((s.heap ++ [some m]).set l _) q = _
    rw [nextOf_setn _ d1, nextOf_append]
  · intro q
    rw [lastOf_setl _ d2]
    show (if q = h then _ else lastOf ((s.heap ++ [some m]).set l _) q) = _
    rw [lastOf_setn _ d1, lastOf_append]
  · intro q
    rw [dataOf_setl _ d2]
    show dataOf ((s.heap ++ [some m]).set l _) q = _
    rw [dataOf_setn _ d1, dataOf_append]

/-- The effect of `insertHead` on the empty registry. -/
theorem insertHead_none {s : Server} (identifier : List Nat) (x y : Int)
    (hh : s.head = none) :
    ∃ heap3, insertHead s identifier x y
        = some { s with heap := heap3, head := some s.heap.length } ∧
      heap3.length = s.heap.length + 1 ∧
      (∀ q, nextOf heap3 q = if q = s.heap.length then some s.heap.length
        else nextOf s.heap q) ∧
      (∀ q, lastOf heap3 q = if q = s.heap.length then some s.heap.length
        else lastOf s.heap q) ∧
      (∀ q, dataOf heap3 q = if q = s.heap.length then some (identifier, x, y)
        else dataOf s.heap q) := by
  refine ⟨s.heap ++ [some ⟨identifier, x, y, some s.heap.length, some s.heap.length⟩],
    ?_, ?_, ?_, ?_, ?_⟩
  · unfold insertHead; simp [hh]
  · simp
  · intro q; rw [nextOf_append]
  · intro q; rw [lastOf_append]
  · intro q; rw [dataOf_append]

/-- The effect of `deleteNode` on a node that is not alone in the ring. -/
theorem deleteNode_some {s : Server} {a nx la : Nat} {n lan nxn : node}
    (hn : deref s.heap a = some n) (hnx : n.next = some nx) (hla : n.last = some la)
    (hne : nx ≠ a) (hlan : deref s.heap la = some lan) (hnxn : deref s.heap nx = some nxn) :
    ∃ heap3, deleteNode s (some a)
        = some { s with heap := heap3,
                        head := if s.head = some a then some nx else s.head } ∧
      heap3.length = s.heap.length ∧
      (∀ q, nextOf heap3 q = if q = a then none
        else if q = la then some nx else nextOf s.heap q) ∧
      (∀ q, lastOf heap3 q = if q = a then none
        else if q = nx then some la else lastOf s.heap q) ∧
      (∀ q, dataOf heap3 q = if q = a then none else dataOf s.heap q) := by
  let heap1 := s.heap.set la (some { lan with next := some nx })
  have hd1 : ∃ m, deref heap1 nx = some m := by
    show ∃ m, deref (s.heap.set la _) nx = some m
    rw [deref_set _ _ _ _ (deref_lt hlan)]
    by_cases e : nx = la
    · simp [e]
    · simp [e, hnxn]
  obtain ⟨m, d1⟩ := hd1
  let heap2 := heap1.set nx (some { m with last := some la })
  have len2 : heap2.length = s.heap.length := by simp [heap2, heap1]
  have ha2 : a < heap2.length := by rw [len2]; exact deref_lt hn
  refine ⟨heap2.set a none, ?_, ?_, ?_, ?_, ?_⟩
  · unfold deleteNode
    simp only [Option.bind_eq_bind, Option.some_bind, hn, hnx, hla, hne, if_false,
      Option.pure_def]
    have e1 : setNext s.heap la (some nx) = some heap1 := by
      unfold setNext; rw [hlan]; rfl
    have e2 : setLast heap1 nx (some la) = some heap2 := by
      unfold setLast; rw [d1]; rfl
    show (setNext s.heap la (some nx)).bind _ = _
    rw [e1, Option.some_bind]
    show (setLast heap1 nx (some la)).bind _ = _
    rw [e2, Option.some_bind]
  · simp [heap2, heap1]
  · intro q
    rw [nextOf_free ha2]
    show (if q = a then none else nextOf (heap1.set nx _) q) = _
    rw [nextOf_setl _ d1]
    show (if q = a then none else nextOf (s.heap.set la _) q) = _
    rw [nextOf_setn _ hlan]
  · intro q
    rw [lastOf_free ha2]
    show (if q = a then none else lastOf (heap1.set nx _) q) = _
    rw [lastOf_setl _ d1]
    show (if q = a then none else if q = nx then _ else lastOf (s.heap.set la _) q) = _
    rw [lastOf_setn _ hlan]
  · intro q
    rw [dataOf_free ha2]
    show (if q = a then none else dataOf (heap1.set nx _) q) = _
    rw [dataOf_setl _ d1]
    show (if q = a then none else dataOf (s.heap.set la _) q) = _
    rw [dataOf_setn _ hlan]

/-! ## Rings under insertion and removal -/

theorem Cyc.cons_iff {heap : List (Option node)} {h : Nat} {t : List Nat} :
    Cyc heap (h :: t) ↔
      List.Chain' (Link heap) (h :: t) ∧
        Link heap ((h :: t).getLast (List.cons_ne_nil h t)) h := by
  rw [Cyc_iff_chain]
  have e : (h :: t) ++ List.take 1 (h :: t) = (h :: t) ++ [h] := by simp
  rw [e, List.chain'_append]
  constructor
  · rintro ⟨h1, _, h3⟩
    refine ⟨h1, h3 _ ?_ h (by simp)⟩
    rw [List.getLast?_eq_getLast _ (List.cons_ne_nil h t)]
    exact rfl
  · rintro ⟨h1, h2⟩
    refine ⟨h1, List.chain'_singleton h, ?_⟩
    intro x hx y hy
    rw [List.getLast?_eq_getLast _ (List.cons_ne_nil h t)] at hx
    have ex : (h :: t).getLast (List.cons_ne_nil h t) = x := by simpa using hx
    have ey : h = y := by simpa using hy
    rw [← ex, ← ey]
    exact h2

theorem Ring.lt {heap : List (Option node)} {r : List Nat} (hr : Ring heap r)
    {p : Nat} (hp : p ∈ r) : p < heap.length :=
  isLive_lt (hr.live p hp)

/-- Linking a fresh node in front of the first element of a ring gives a ring. -/
theorem Ring.insert {heap heap3 : List (Option node)} {h l : Nat} {t : List Nat}
    {d : List Nat × Int × Int}
    (hr : Ring heap (h :: t)) (hl : l = (h :: t).getLast (List.cons_ne_nil h t))
    (len : heap3.length = heap.length + 1)
    (hN : ∀ q, nextOf heap3 q = if q = l then some heap.length
      else if q = heap.length then some h else nextOf heap q)
    (hL : ∀ q, lastOf heap3 q = if q = h then some heap.length
      else if q = heap.length then some l else lastOf heap q)
    (hD : ∀ q, dataOf heap3 q = if q = heap.length then some d else dataOf heap q) :
    Ring heap3 (heap.length :: h :: t) := by
  have hlive : ∀ q, isLive heap3 q = if q = heap.length then true else isLive heap q := by
    intro q
    rw [isLive_eq_dataOf, hD, isLive_eq_dataOf]
    by_cases e : q = heap.length <;> simp [e]
  have hlmem : l ∈ h :: t := by rw [hl]; exact List.getLast_mem _
  have hl_lt : l < heap.length := hr.lt hlmem
  have hh_lt : h < heap.length := hr.lt (by simp)
  obtain ⟨hch, hlast⟩ := Cyc.cons_iff.mp hr.cyc
  rw [← hl] at hlast
  refine ⟨?_, ?_, ?_, ?_⟩
  · refine List.nodup_cons.mpr ⟨?_, hr.nodup⟩
    intro hm
    exact absurd (hr.lt hm) (lt_irrefl _)
  · intro p hp
    rw [hlive]
    by_cases e : p = heap.length
    · simp [e]
    · simp only [e, if_false]
      exact hr.live p (by simpa [e] using hp)
  · intro p hp hpl
    rw [hlive] at hpl
    by_cases e : p = heap.length
    · simp [e]
    · simp only [e, if_false] at hpl
      exact List.mem_cons_of_mem _ (hr.all p (by omega) hpl)
  · rw [Cyc.cons_iff]
    have hgl : (heap.length :: h :: t).getLast (List.cons_ne_nil _ _) = l := by
      rw [hl]; simp [List.getLast_cons]
    rw [hgl]
    refine ⟨List.Chain'.cons ?_ ?_, ?_⟩
    · constructor
      · rw [hN]
        have e1 : ¬ heap.length = l := by omega
        simp [e1]
      · rw [hL]; simp
    · refine chain_frame hch ?_
      intro x y hx hy hxy
      have hxl : x ≠ l := by
        intro e
        rw [e, hl] at hx
        exact not_mem_dropLast_of_nodup hr.nodup _ hx
      have hx_lt : x < heap.length := hr.lt (List.mem_of_mem_dropLast hx)
      have hyh : y ≠ h := by
        intro e
        rw [e] at hy
        exact not_mem_tail_of_nodup hr.nodup (by simpa using hy)
      have hy_lt : y < heap.length := hr.lt (List.mem_of_mem_tail hy)
      have hxp : ¬ x = heap.length := by omega
      have hyp : ¬ y = heap.length := by omega
      constructor
      · rw [hN]; simp only [hxl, hxp, if_false]; exact hxy.1
      · rw [hL]; simp only [hyh, hyp, if_false]; exact hxy.2
    · constructor
      · rw [hN]; simp
      · rw [hL]
        have e1 : ¬ heap.length = h := by omega
        simp [e1]

/-- Unlinking the first element of a ring of two or more gives a ring. -/
theorem Ring.delete {heap heap3 : List (Option node)} {a b l : Nat} {t : List Nat}
    (hr : Ring heap (a :: b :: t)) (hl : l = (b :: t).getLast (List.cons_ne_nil b t))
    (len : heap3.length = heap.length)
    (hN : ∀ q, nextOf heap3 q = if q = a then none
      else if q = l then some b else nextOf heap q)
    (hL : ∀ q, lastOf heap3 q = if q = a then none
      else if q = b then some l else lastOf heap q)
    (hD : ∀ q, dataOf heap3 q = if q = a then none else dataOf heap q) :
    Ring heap3 (b :: t) := by
  have hlive : ∀ q, isLive heap3 q = if q = a then false else isLive heap q := by
    intro q
    rw [isLive_eq_dataOf, hD, isLive_eq_dataOf]
    by_cases e : q = a <;> simp [e]
  have hnd : (b :: t).Nodup := (List.nodup_cons.mp hr.nodup).2
  have hna : ∀ q ∈ b :: t, q ≠ a := by
    intro q hq e
    rw [e] at hq
    exact (List.nodup_cons.mp hr.nodup).1 hq
  have hlmem : l ∈ b :: t := by rw [hl]; exact List.getLast_mem _
  obtain ⟨hch, hlast⟩ := Cyc.cons_iff.mp hr.cyc
  have hgl : (a :: b :: t).getLast (List.cons_ne_nil _ _) = l := by
    rw [hl]; simp [List.getLast_cons]
  rw [hgl] at hlast
  rw [List.chain'_cons] at hch
  refine ⟨hnd, ?_, ?_, ?_⟩
  · intro p hp
    rw [hlive]
    simp only [hna p hp, if_false]
    exact hr.live p (List.mem_cons_of_mem _ hp)
  · intro p hp hpl
    rw [hlive] at hpl
    by_cases e : p = a
    · simp [e] at hpl
    · simp only [e, if_false] at hpl
      have := hr.all p (by omega) hpl
      simpa [e] using this
  · rw [Cyc.cons_iff, ← hl]
    refine ⟨chain_frame hch.2 ?_, ?_⟩
    · intro x y hx hy hxy
      have hxl : x ≠ l := by
        intro e
        rw [e, hl] at hx
        exact not_mem_dropLast_of_nodup hnd _ hx
      have hxa : x ≠ a := hna x (List.mem_of_mem_dropLast hx)
      have hyb : y ≠ b := by
        intro e
        rw [e] at hy
        exact not_mem_tail_of_nodup hnd (by simpa using hy)
      have hya : y ≠ a := hna y (List.mem_of_mem_tail hy)
      constructor
      · rw [hN]; simp only [hxl, hxa, if_false]; exact hxy.1
      · rw [hL]; simp only [hyb, hya, if_false]; exact hxy.2
    · constructor
      · rw [hN]; simp [hna l hlmem]
      · rw [hL]; simp [hna b (by simp)]

/-! ## The ring read from `head` -/

theorem Ring.ringFrom_eq {s : Server} {a : Nat} {t : List Nat} (hr : Ring s.heap (a :: t)) :
    ringFrom s.heap a (count s) = a :: t ∧ walk s.heap a (count s) = some a := by
  have hc : List.Chain' (Link s.heap) (a :: t ++ [a]) := by
    have := Cyc_iff_chain.mp hr.cyc
    simpa using this
  have hlen : count s = t.length + 1 := by rw [← hr.length_eq]; simp
  rw [hlen]
  exact ringFrom_chain t a a hc

theorem ring_eq {s : Server} {r : List Nat} (hr : Ring s.heap r) (hh : s.head = r.head?) :
    ring s = r := by
  unfold ring
  cases r with
  | nil => simp at hh; simp [hh]
  | cons a t =>
    simp at hh
    simp only [hh]
    exact hr.ringFrom_eq.1

theorem Inv.of_ring {s : Server} {r : List Nat} (hr : Ring s.heap r) (hh : s.head = r.head?)
    (hc : 2 ≤ r.length → ∃ c ∈ r, s.current = some c) : Inv s := by
  have e := ring_eq hr hh
  unfold Inv
  rw [e]
  refine ⟨hr, hh, ?_⟩
  intro h2
  rw [← hr.length_eq] at h2
  exact hc h2

theorem Inv.count_eq {s : Server} (h : Inv s) : (ring s).length = count s :=
  h.1.length_eq

/-! ## Reading links off a ring -/

theorem nextOf_eq_some {heap : List (Option node)} {a b : Nat} :
    nextOf heap a = some b ↔ ∃ n, deref heap a = some n ∧ n.next = some b := by
  unfold nextOf
  cases deref heap a <;> simp

theorem lastOf_eq_some {heap : List (Option node)} {a b : Nat} :
    lastOf heap a = some b ↔ ∃ n, deref heap a = some n ∧ n.last = some b := by
  unfold lastOf
  cases deref heap a <;> simp

theorem Ring.link_last {heap : List (Option node)} {a : Nat} {t : List Nat}
    (hr : Ring heap (a :: t)) :
    Link heap ((a :: t).getLast (List.cons_ne_nil a t)) a :=
  (Cyc.cons_iff.mp hr.cyc).2

theorem Ring.link_head {heap : List (Option node)} {a b : Nat} {t : List Nat}
    (hr : Ring heap (a :: b :: t)) : Link heap a b :=
  (List.chain'_cons.mp (Cyc.cons_iff.mp hr.cyc).1).1

theorem Ring.link_second {heap : List (Option node)} {a b c : Nat} {t : List Nat}
    (hr : Ring heap (a :: b :: c :: t)) : Link heap b c :=
  (List.chain'_cons.mp (List.chain'_cons.mp (Cyc.cons_iff.mp hr.cyc).1).2).1

theorem Ring.link_single {heap : List (Option node)} {a : Nat}
    (hr : Ring heap [a]) : Link heap a a := by
  simpa using hr.link_last

theorem Ring.link_back {heap : List (Option node)} {a b : Nat}
    (hr : Ring heap [a, b]) : Link heap b a := by
  simpa using hr.link_last

/-! ## insertHead on a well-formed registry -/

theorem insertHead_ring {s : Server} {r : List Nat} (hr : Ring s.heap r)
    (hh : s.head = r.head?) (identifier : List Nat) (x y : Int) :
    ∃ heap3, insertHead s identifier x y
        = some { s with heap := heap3, head := some s.heap.length } ∧
      heap3.length = s.heap.length + 1 ∧
      Ring heap3 (s.heap.length :: r) ∧
      (∀ q, dataOf heap3 q = if q = s.heap.length then some (identifier, x, y)
        else dataOf s.heap q) := by
  cases r with
  | nil =>
    have hh0 : s.head = none := by simpa using hh
    obtain ⟨heap3, e, len, hN, hL, hD⟩ := insertHead_none identifier x y hh0
    refine ⟨heap3, e, len, ?_, hD⟩
    have hlive : ∀ q, isLive heap3 q = if q = s.heap.length then true
        else isLive s.heap q := by
      intro q
      rw [isLive_eq_dataOf, hD, isLive_eq_dataOf]
      by_cases e : q = s.heap.length <;> simp [e]
    refine ⟨by simp, ?_, ?_, ?_⟩
    · intro p hp
      have : p = s.heap.length := by simpa using hp
      rw [hlive]; simp [this]
    · intro p hp hpl
      rw [hlive] at hpl
      by_cases e : p = s.heap.length
      · simp [e]
      · simp only [e, if_false] at hpl
        exact absurd (hr.all p (isLive_lt hpl) hpl) (by simp)
    · rw [Cyc.cons_iff]
      refine ⟨List.chain'_singleton _, ?_⟩
      constructor
      · rw [hN]; simp
      · rw [hL]; simp
  | cons h t =>
    have hh0 : s.head = some h := by simpa using hh
    have hlk := hr.link_last
    obtain ⟨hn, hhn, hnl⟩ := lastOf_eq_some.mp hlk.2
    obtain ⟨ln, hln, _⟩ := nextOf_eq_some.mp hlk.1
    obtain ⟨heap3, e, len, hN, hL, hD⟩ := insertHead_some identifier x y hh0 hhn hnl hln
    exact ⟨heap3, e, len, hr.insert rfl len hN hL hD, hD⟩

/-! ## The JOIN branch on a well-formed registry -/

theorem activate_ring {s : Server} {p : Nat} {r : List Nat} (hr : Ring s.heap (p :: r))
    (hh : s.head = some p) (hl : s.log_file_lock = false) :
    activate s = some (if r.length = 1
      then { s with current := r.head?, log_file := s.log_file ++ [.active] }
      else s) := by
  cases r with
  | nil =>
    obtain ⟨pn, hpn, hpnn⟩ := nextOf_eq_some.mp hr.link_single.1
    unfold activate
    simp [load, hh, hpn, hpnn]
  | cons h t =>
    have hlk := hr.link_head
    obtain ⟨pn, hpn, hpnn⟩ := nextOf_eq_some.mp hlk.1
    have hne : h ≠ p := by
      intro e
      have := (List.nodup_cons.mp hr.nodup).1
      simp [e] at this
    cases t with
    | nil =>
      have hb := hr.link_back
      obtain ⟨hn, hhn, hhnn⟩ := nextOf_eq_some.mp hb.1
      obtain ⟨pn2, hpn2, hpnl⟩ := lastOf_eq_some.mp hb.2
      have e2 : pn2 = pn := by rw [hpn] at hpn2; exact (Option.some.inj hpn2).symm
      subst e2
      unfold activate
      simp [load, hh, hpn, hpnn, hne, hhn, hhnn, hpnl, pthread_mutex_lock, hl,
        pthread_mutex_unlock, fprintf]
    | cons b t =>
      have h2 := hr.link_second
      obtain ⟨hn, hhn, hhnn⟩ := nextOf_eq_some.mp h2.1
      have hbp : b ≠ p := by
        intro e
        have := (List.nodup_cons.mp hr.nodup).1
        simp [e] at this
      unfold activate
      simp [load, hh, hpn, hpnn, hne, hhn, hhnn, hbp]

/-- The JOIN branch in closed form. -/
theorem join_spec {s : Server} (identifier bbuffer x_val y_val : List Nat) (r1 r2 : Nat)
    {x y : Int} (hinv : Inv s) (hl1 : s.list_lock = false) (hl2 : s.log_file_lock = false)
    (hop : operands bbuffer x_val y_val = some (x, y)) :
    ∃ heap3, join s identifier bbuffer x_val y_val r1 r2
        = some { heap := heap3, head := some s.heap.length,
                 current := if count s = 1 then s.head else s.current,
                 list_lock := false, log_file_lock := false,
                 log_file := s.log_file ++
                   (.joined identifier (solution x y r1 r2).1 (solution x y r1 r2).2 ::
                     if count s = 1 then [.active] else []) } ∧
      heap3.length = s.heap.length + 1 ∧
      Ring heap3 (s.heap.length :: ring s) ∧
      (∀ q, dataOf heap3 q = if q = s.heap.length
        then some (identifier, (solution x y r1 r2).1, (solution x y r1 r2).2)
        else dataOf s.heap q) := by
  obtain ⟨heap3, e, len, hr3, hD⟩ :=
    insertHead_ring (s := { s with list_lock := true }) hinv.1 hinv.2.1 identifier
      (solution x y r1 r2).1 (solution x y r1 r2).2
  refine ⟨heap3, ?_, len, hr3, hD⟩
  have hact := activate_ring
    (s := { heap := heap3, head := some s.heap.length, current := s.current,
            list_lock := true, log_file_lock := false,
            log_file := s.log_file ++
              [.joined identifier (solution x y r1 r2).1 (solution x y r1 r2).2] })
    hr3 rfl rfl
  have hcount : (ring s).length = count s := hinv.count_eq
  have hhead : (ring s).head? = s.head := hinv.2.1.symm
  have e2 : insertHead
      { heap := s.heap, head := s.head, current := s.current, list_lock := true,
        log_file_lock := false, log_file := s.log_file }
      identifier (solution x y r1 r2).1 (solution x y r1 r2).2
      = some
        { heap := heap3, head := some s.heap.length, current := s.current, list_lock := true,
          log_file_lock := false, log_file := s.log_file } := by
    simpa [hl2] using e
  unfold join
  simp only [pthread_mutex_lock, hl1, hl2, hop, e2, Option.bind_eq_bind, Option.some_bind,
    Option.pure_def, pthread_mutex_unlock, fprintf, Bool.false_eq_true, if_false]
  rw [hact, hcount, hhead]
  by_cases h1 : count s = 1 <;> simp [h1]

/-! ## The BOMB branch on a well-formed registry -/

theorem Inv.head_none {s : Server} (hinv : Inv s) (h0 : count s = 0) : s.head = none := by
  have hlen := hinv.count_eq
  rw [h0] at hlen
  have : ring s = [] := List.length_eq_zero.mp hlen
  have hh := hinv.2.1
  rw [this] at hh
  simpa using hh

theorem Inv.head_some {s : Server} (hinv : Inv s) (h0 : 0 < count s) :
    ∃ h t, ring s = h :: t ∧ s.head = some h := by
  have hlen := hinv.count_eq
  cases hr : ring s with
  | nil => rw [hr] at hlen; simp at hlen; omega
  | cons h t =>
    refine ⟨h, t, rfl, ?_⟩
    have hh := hinv.2.1
    rw [hr] at hh
    simpa using hh

/-- With no player the BOMB is answered "noone has joined the game yet". -/
theorem bomb_noone {s : Server} (identifier bbuffer x_val y_val : List Nat)
    (hinv : Inv s) (hl1 : s.list_lock = false) (hl2 : s.log_file_lock = false)
    (h0 : count s = 0) :
    bomb s identifier bbuffer x_val y_val
      = some { s with log_file := s.log_file ++ [.noone identifier] } := by
  have hh := hinv.head_none h0
  unfold bomb
  simp [pthread_mutex_lock, hl1, hl2, hh, pthread_mutex_unlock, fprintf]

/-- With one player the BOMB takes the last `else` of the branch, which leaves
`log_file_lock` held. -/
theorem bomb_alone {s : Server} (identifier bbuffer x_val y_val : List Nat)
    (hinv : Inv s) (hl1 : s.list_lock = false) (hl2 : s.log_file_lock = false)
    (h1 : count s = 1) :
    bomb s identifier bbuffer x_val y_val
      = some { s with log_file_lock := true,
                      log_file := s.log_file ++ [.no_other_players identifier] } := by
  obtain ⟨h, t, hr, hh⟩ := hinv.head_some (by omega)
  have hlen := hinv.count_eq
  rw [hr, h1] at hlen
  have ht : t = [] := by
    cases t with
    | nil => rfl
    | cons b t => simp at hlen
  subst ht
  have hring := hinv.1
  rw [hr] at hring
  obtain ⟨hn, hhn, hhnn⟩ := nextOf_eq_some.mp hring.link_single.1
  unfold bomb
  simp [pthread_mutex_lock, hl1, hl2, hh, pthread_mutex_unlock, fprintf, load, hhn, hhnn]

/-- What a registry of two or more players looks like from `current`. -/
theorem Inv.turn_ctx {s : Server} (hinv : Inv s) (hN : 2 ≤ count s) :
    ∃ c t rest cn tn hd hn nx,
      s.current = some c ∧ Ring s.heap (c :: t :: rest) ∧ rest.length + 2 = count s ∧
      deref s.heap c = some cn ∧ cn.next = some t ∧
      deref s.heap t = some tn ∧ tn.last = some c ∧
      s.head = some hd ∧ hd ∈ c :: t :: rest ∧
      deref s.heap hd = some hn ∧ hn.next = some nx ∧ nx ≠ hd := by
  obtain ⟨c, hcm, hc⟩ := hinv.2.2 hN
  obtain ⟨tl, hrc, hperm, hlen0⟩ := hinv.1.startAt hcm
  have hlen : tl.length + 1 = count s := by
    rw [← hinv.count_eq, ← hlen0]; simp
  have hcount := hinv.count_eq
  obtain ⟨hd, t0, hr0, hh⟩ := hinv.head_some (by omega)
  have hring := hinv.1
  rw [hr0] at hring hcount
  cases t0 with
  | nil => simp at hcount; omega
  | cons b t0 =>
    have hlk := hring.link_head
    obtain ⟨hn, hhn, hhnn⟩ := nextOf_eq_some.mp hlk.1
    have hbne : b ≠ hd := by
      intro e
      have := (List.nodup_cons.mp hring.nodup).1
      simp [e] at this
    cases tl with
    | nil => simp at hlen; omega
    | cons t rest =>
      have hl2 := hrc.link_head
      obtain ⟨cn, hcn, hcnn⟩ := nextOf_eq_some.mp hl2.1
      obtain ⟨tn, htn, htnl⟩ := lastOf_eq_some.mp hl2.2
      refine ⟨c, t, rest, cn, tn, hd, hn, b, hc, hrc, ?_, hcn, hcnn, htn, htnl, hh, ?_,
        hhn, hhnn, hbne⟩
      · simp at hlen; omega
      · have : hd ∈ ring s := by rw [hr0]; simp
        exact hperm.symm.subset this

/-- With two or more players the BOMB branch reaches the turn check. -/
theorem bomb_two {s : Server} (identifier bbuffer x_val y_val : List Nat) {c : Nat} {cn : node}
    (hinv : Inv s) (hl1 : s.list_lock = false) (hl2 : s.log_file_lock = false)
    (hN : 2 ≤ count s) (hc : s.current = some c) (hcn : deref s.heap c = some cn) :
    bomb s identifier bbuffer x_val y_val
      = ((if strncmp cn.identifier identifier 4 = true then
            turn { s with list_lock := true } cn bbuffer x_val y_val
          else
            some { s with list_lock := true,
                          log_file := s.log_file ++ [.not_his_turn identifier] }).bind
          (fun s3 => some (pthread_mutex_unlock s3 .list_lock))) := by
  obtain ⟨c2, t, rest, cn2, tn, hd, hn, nx, hc2, _, _, _, _, _, _, hh, _, hhn, hhnn, hne⟩ :=
    hinv.turn_ctx hN
  have hne2 : ¬ (some nx = some hd) := by simpa using hne
  unfold bomb
  by_cases hs : strncmp cn.identifier identifier 4 = true <;>
    simp [pthread_mutex_lock, pthread_mutex_unlock, fprintf, hl1, hl2, hh, load, hhn, hhnn,
      hc, hcn, hne, hs]

theorem turn_miss {s : Server} {cn tn : node} {bbuffer x_val y_val : List Nat} {x y : Int}
    (hop : operands bbuffer x_val y_val = some (x, y))
    (htn : load s.heap cn.next = some tn) (hl2 : s.log_file_lock = false)
    (hmiss : ¬ (x = tn.x_solution ∧ y = tn.y_solution)) :
    turn s cn bbuffer x_val y_val
      = some { s with current := cn.next,
                      log_file := s.log_file ++
                        [.bombed cn.identifier tn.identifier x y,
                         .missed cn.identifier tn.identifier tn.identifier] } := by
  unfold turn
  simp [hop, htn, hmiss, pthread_mutex_lock, hl2, pthread_mutex_unlock, fprintf]

theorem turn_win {s : Server} {cn tn : node} {bbuffer x_val y_val : List Nat} {x y : Int}
    (hop : operands bbuffer x_val y_val = some (x, y))
    (htn : load s.heap cn.next = some tn) (hl2 : s.log_file_lock = false)
    (hhit : x = tn.x_solution ∧ y = tn.y_solution) (hw : tn.next = s.current) :
    turn s cn bbuffer x_val y_val
      = some { s with log_file := s.log_file ++
                        [.bombed cn.identifier tn.identifier x y,
                         .wins cn.identifier tn.identifier cn.identifier] } := by
  unfold turn
  simp [hop, htn, hhit, hw, pthread_mutex_lock, hl2, pthread_mutex_unlock, fprintf]

theorem turn_out {s : Server} {cn tn nn : node} {bbuffer x_val y_val : List Nat} {x y : Int}
    (hop : operands bbuffer x_val y_val = some (x, y))
    (htn : load s.heap cn.next = some tn) (hl2 : s.log_file_lock = false)
    (hhit : x = tn.x_solution ∧ y = tn.y_solution) (hw : tn.next ≠ s.current)
    (hnn : load s.heap tn.next = some nn) :
    turn s cn bbuffer x_val y_val
      = deleteNode
          { s with current := tn.next,
                   log_file := s.log_file ++
                     [.bombed cn.identifier tn.identifier x y,
                      .out cn.identifier tn.identifier tn.identifier cn.identifier
                        nn.identifier nn.identifier] }
          nn.last := by
  unfold turn
  simp [hop, htn, hhit, hw, hnn, pthread_mutex_lock, hl2, pthread_mutex_unlock, fprintf]

/-- A hit with three or more players in closed form: the target `t` is unlinked
and freed, `current` moves to the target's successor `n2`. -/
theorem bomb_out {s : Server} (identifier bbuffer x_val y_val : List Nat)
    {c t n2 : Nat} {rest : List Nat} {cn tn : node} {x y : Int}
    (hinv : Inv s) (hl1 : s.list_lock = false) (hl2 : s.log_file_lock = false)
    (hc : s.current = some c) (hr : Ring s.heap (c :: t :: n2 :: rest))
    (hcn : deref s.heap c = some cn) (htn : deref s.heap t = some tn)
    (hid : strncmp cn.identifier identifier 4 = true)
    (hop : operands bbuffer x_val y_val = some (x, y))
    (hhit : x = tn.x_solution ∧ y = tn.y_solution) :
    ∃ heap3 nn, deref s.heap n2 = some nn ∧ tn.next = some n2 ∧
      bomb s identifier bbuffer x_val y_val
        = some { heap := heap3,
                 head := if s.head = some t then some n2 else s.head,
                 current := some n2,
                 list_lock := false, log_file_lock := false,
                 log_file := s.log_file ++
                   [.bombed cn.identifier tn.identifier x y,
                    .out cn.identifier tn.identifier tn.identifier cn.identifier
                      nn.identifier nn.identifier] } ∧
      heap3.length = s.heap.length ∧
      Ring heap3 (n2 :: (rest ++ [c])) ∧
      (∀ q, dataOf heap3 q = if q = t then none else dataOf s.heap q) := by
  have hN : 2 ≤ count s := by rw [← hr.length_eq]; simp
  -- the links around the target
  have l1 := hr.link_head
  have l2 := hr.link_second
  obtain ⟨cn1, hcn1, hcnn⟩ := nextOf_eq_some.mp l1.1
  have ecn : cn1 = cn := by rw [hcn] at hcn1; exact (Option.some.inj hcn1).symm
  subst ecn
  obtain ⟨tn1, htn1, htnl⟩ := lastOf_eq_some.mp l1.2
  have etn : tn1 = tn := by rw [htn] at htn1; exact (Option.some.inj htn1).symm
  subst etn
  obtain ⟨tn2, htn2, htnn⟩ := nextOf_eq_some.mp l2.1
  have etn2 : tn2 = tn1 := by rw [htn] at htn2; exact (Option.some.inj htn2).symm
  subst etn2
  obtain ⟨nn, hnn, hnnl⟩ := lastOf_eq_some.mp l2.2
  have hnd := hr.nodup
  have hn2c : n2 ≠ c := by
    intro e; rw [e] at hnd; simp at hnd
  have hn2t : n2 ≠ t := by
    intro e; rw [e] at hnd; simp at hnd
  -- the ring read from the target
  have hr2 : Ring s.heap (t :: n2 :: (rest ++ [c])) := by
    have := @Ring.rotate s.heap [c] (t :: n2 :: rest) (by simpa using hr)
    simpa using this
  obtain ⟨heap3, e, len, hN3, hL3, hD3⟩ :=
    deleteNode_some
      (s := { heap := s.heap, head := s.head, current := some n2, list_lock := true,
              log_file_lock := false,
              log_file := s.log_file ++
                [.bombed cn1.identifier tn2.identifier x y,
                 .out cn1.identifier tn2.identifier tn2.identifier cn1.identifier
                   nn.identifier nn.identifier] })
      htn htnn htnl hn2t hcn hnn
  have hgl : c = (n2 :: (rest ++ [c])).getLast (List.cons_ne_nil _ _) := by
    simp [List.getLast_cons]
  have hr3 := hr2.delete hgl len hN3 hL3 hD3
  refine ⟨heap3, nn, hnn, htnn, ?_, len, hr3, hD3⟩
  rw [bomb_two identifier bbuffer x_val y_val hinv hl1 hl2 hN hc hcn]
  have hw : tn2.next ≠ some c := by rw [htnn]; simpa using hn2c
  have hto := @turn_out
    { heap := s.heap, head := s.head, current := s.current, list_lock := true,
      log_file_lock := false, log_file := s.log_file }
    cn1 tn2 nn bbuffer x_val y_val x y
    hop (by simp [load, hcnn, htn]) rfl hhit (by simpa [hc] using hw)
    (by simp [load, htnn, hnn])
  simp only [hid, if_true, hl2]
  rw [hto]
  simp only [htnn, hnnl]
  rw [e]
  simp [pthread_mutex_unlock]

/-! ## Dispatch on the command -/

theorem strncmp_BOMB_not_JOIN {bbuffer : List Nat} (h : strncmp bbuffer BOMB 4 = true) :
    strncmp bbuffer JOIN 4 = false := by
  cases bbuffer with
  | nil => simp [strncmp, BOMB] at h
  | cons c cs =>
    have hc : c = 66 := by
      by_contra hne
      simp [strncmp, BOMB, hne] at h
    subst hc
    simp [strncmp, JOIN]

theorem handle_client_JOIN {s : Server} {client_identifier bbuffer x_val y_val : List Nat}
    {r1 r2 : Nat} (h : strncmp bbuffer JOIN 4 = true) :
    handle_client s client_identifier bbuffer x_val y_val r1 r2
      = join s (strncpy client_identifier 4) bbuffer x_val y_val r1 r2 := by
  simp [handle_client, h]

theorem handle_client_BOMB {s : Server} {client_identifier bbuffer x_val y_val : List Nat}
    {r1 r2 : Nat} (h : strncmp bbuffer BOMB 4 = true) :
    handle_client s client_identifier bbuffer x_val y_val r1 r2
      = bomb s (strncpy client_identifier 4) bbuffer x_val y_val := by
  simp [handle_client, h, strncmp_BOMB_not_JOIN h]

/-- The JOIN branch on a well-formed registry: the state it returns, and that
this state is well formed again. -/
theorem join_full {s : Server} (identifier bbuffer x_val y_val : List Nat) (r1 r2 : Nat)
    {x y : Int} (hinv : Inv s) (hl1 : s.list_lock = false) (hl2 : s.log_file_lock = false)
    (hop : operands bbuffer x_val y_val = some (x, y)) :
    ∃ s2, join s identifier bbuffer x_val y_val r1 r2 = some s2 ∧
      Inv s2 ∧ ring s2 = s.heap.length :: ring s ∧
      s2.head = some s.heap.length ∧
      s2.current = (if count s = 1 then s.head else s.current) ∧
      s2.list_lock = false ∧ s2.log_file_lock = false ∧
      s2.log_file = s.log_file ++
        (.joined identifier (solution x y r1 r2).1 (solution x y r1 r2).2 ::
          if count s = 1 then [.active] else []) ∧
      (∀ q, dataOf s2.heap q = if q = s.heap.length
        then some (identifier, (solution x y r1 r2).1, (solution x y r1 r2).2)
        else dataOf s.heap q) := by
  obtain ⟨heap3, e, _, hr3, hD⟩ := join_spec identifier bbuffer x_val y_val r1 r2 hinv hl1 hl2 hop
  refine ⟨_, e, ?_, ?_, rfl, rfl, rfl, rfl, rfl, hD⟩
  · refine Inv.of_ring hr3 rfl ?_
    intro h2
    have hlen := hinv.count_eq
    by_cases h1 : count s = 1
    · obtain ⟨h, t, hr, hh⟩ := hinv.head_some (by omega)
      refine ⟨h, ?_, ?_⟩
      · rw [hr]; simp
      · simp [h1, hh]
    · have h3 : 2 ≤ count s := by
        simp only [List.length_cons] at h2
        omega
      obtain ⟨c, hcm, hc⟩ := hinv.2.2 h3
      exact ⟨c, List.mem_cons_of_mem _ hcm, by simp [h1, hc]⟩
  · exact ring_eq hr3 rfl

/-! ## Well-formedness only depends on the registry -/

theorem ring_congr {s s2 : Server} (h1 : s2.heap = s.heap) (h2 : s2.head = s.head) :
    ring s2 = ring s := by
  unfold ring count players
  rw [h1, h2]

theorem count_congr {s s2 : Server} (h1 : s2.heap = s.heap) : count s2 = count s := by
  unfold count players
  rw [h1]

theorem Inv.congr {s s2 : Server} (hinv : Inv s) (h1 : s2.heap = s.heap)
    (h2 : s2.head = s.head) (h3 : s2.current = s.current) : Inv s2 := by
  unfold Inv
  rw [ring_congr h1 h2, count_congr h1, h1, h2, h3]
  exact hinv

theorem Inv.set_current {s s2 : Server} (hinv : Inv s) (h1 : s2.heap = s.heap)
    (h2 : s2.head = s.head) {c : Nat} (h3 : s2.current = some c)
    (hc : isLive s.heap c = true) : Inv s2 := by
  unfold Inv
  rw [ring_congr h1 h2, count_congr h1, h1, h2, h3]
  exact ⟨hinv.1, hinv.2.1, fun _ => ⟨c, (hinv.1.mem_iff c).mpr hc, rfl⟩⟩

/-- The ring read from `current` when its node and its successor are named. -/
theorem Inv.ctx_at {s : Server} (hinv : Inv s) (hN : 2 ≤ count s) {c t : Nat} {cn : node}
    (hc : s.current = some c) (hcn : deref s.heap c = some cn) (ht : cn.next = some t) :
    ∃ rest tn, Ring s.heap (c :: t :: rest) ∧ rest.length + 2 = count s ∧
      deref s.heap t = some tn := by
  obtain ⟨c2, t2, rest, cn2, tn, _, _, _, hc2, hr, hlen, hcn2, hcnn2, htn, _, _, _, _, _, _⟩ :=
    hinv.turn_ctx hN
  have ec : c2 = c := by rw [hc] at hc2; exact (Option.some.inj hc2).symm
  subst ec
  have ecn : cn2 = cn := by rw [hcn] at hcn2; exact (Option.some.inj hcn2).symm
  subst ecn
  have et : t2 = t := by rw [ht] at hcnn2; exact (Option.some.inj hcnn2).symm
  subst et
  exact ⟨rest, tn, hr, hlen, htn⟩

/-! ## The outcomes of a BOMB, with the state returned -/

theorem bomb_not_turn {s : Server} (identifier bbuffer x_val y_val : List Nat)
    {c : Nat} {cn : node}
    (hinv : Inv s) (hl1 : s.list_lock = false) (hl2 : s.log_file_lock = false)
    (hN : 2 ≤ count s) (hc : s.current = some c) (hcn : deref s.heap c = some cn)
    (hid : strncmp cn.identifier identifier 4 = false) :
    bomb s identifier bbuffer x_val y_val
      = some { s with log_file := s.log_file ++ [.not_his_turn identifier] } := by
  rw [bomb_two identifier bbuffer x_val y_val hinv hl1 hl2 hN hc hcn]
  simp [hid, pthread_mutex_unlock]
  cases s
  simp_all

theorem bomb_no_operands {s : Server} (identifier bbuffer x_val y_val : List Nat)
    {c : Nat} {cn : node}
    (hinv : Inv s) (hl1 : s.list_lock = false) (hl2 : s.log_file_lock = false)
    (hN : 2 ≤ count s) (hc : s.current = some c) (hcn : deref s.heap c = some cn)
    (hid : strncmp cn.identifier identifier 4 = true)
    (hop : operands bbuffer x_val y_val = none) :
    bomb s identifier bbuffer x_val y_val = none := by
  rw [bomb_two identifier bbuffer x_val y_val hinv hl1 hl2 hN hc hcn]
  simp [hid, turn, hop]

theorem bomb_miss {s : Server} (identifier bbuffer x_val y_val : List Nat)
    {c t : Nat} {cn tn : node} {x y : Int}
    (hinv : Inv s) (hl1 : s.list_lock = false) (hl2 : s.log_file_lock = false)
    (hN : 2 ≤ count s) (hc : s.current = some c) (hcn : deref s.heap c = some cn)
    (hid : strncmp cn.identifier identifier 4 = true)
    (ht : cn.next = some t) (htn : deref s.heap t = some tn)
    (hop : operands bbuffer x_val y_val = some (x, y))
    (hmiss : ¬ (x = tn.x_solution ∧ y = tn.y_solution)) :
    bomb s identifier bbuffer x_val y_val
      = some { s with current := some t,
                      log_file := s.log_file ++
                        [.bombed cn.identifier tn.identifier x y,
                         .missed cn.identifier tn.identifier tn.identifier] } := by
  rw [bomb_two identifier bbuffer x_val y_val hinv hl1 hl2 hN hc hcn]
  have hto := @turn_miss
    { heap := s.heap, head := s.head, current := s.current, list_lock := true,
      log_file_lock := false, log_file := s.log_file }
    cn tn bbuffer x_val y_val x y hop (by simp [load, ht, htn]) rfl hmiss
  simp only [hid, if_true, hl2]
  rw [hto]
  simp [pthread_mutex_unlock, ht]
  cases s
  simp_all

theorem bomb_win {s : Server} (identifier bbuffer x_val y_val : List Nat)
    {c t : Nat} {cn tn : node} {x y : Int}
    (hinv : Inv s) (hl1 : s.list_lock = false) (hl2 : s.log_file_lock = false)
    (hN : count s = 2) (hc : s.current = some c) (hcn : deref s.heap c = some cn)
    (hid : strncmp cn.identifier identifier 4 = true)
    (ht : cn.next = some t) (htn : deref s.heap t = some tn)
    (hop : operands bbuffer x_val y_val = some (x, y))
    (hhit : x = tn.x_solution ∧ y = tn.y_solution) :
    bomb s identifier bbuffer x_val y_val
      = some { s with log_file := s.log_file ++
                        [.bombed cn.identifier tn.identifier x y,
                         .wins cn.identifier tn.identifier cn.identifier] } := by
  obtain ⟨rest, tn2, hr, hlen, htn2⟩ := hinv.ctx_at (by omega) hc hcn ht
  have hrest : rest = [] := by
    cases rest with
    | nil => rfl
    | cons a r => simp at hlen; omega
  subst hrest
  obtain ⟨tn3, htn3, htnn⟩ := nextOf_eq_some.mp hr.link_back.1
  have e3 : tn3 = tn := by rw [htn] at htn3; exact (Option.some.inj htn3).symm
  subst e3
  rw [bomb_two identifier bbuffer x_val y_val hinv hl1 hl2 (by omega) hc hcn]
  have hto := @turn_win
    { heap := s.heap, head := s.head, current := s.current, list_lock := true,
      log_file_lock := false, log_file := s.log_file }
    cn tn3 bbuffer x_val y_val x y hop (by simp [load, ht, htn]) rfl hhit
    (by simp [htnn, hc])
  simp only [hid, if_true, hl2]
  rw [hto]
  simp [pthread_mutex_unlock]
  cases s
  simp_all

/-- A hit with three or more players: the state returned and its ring. -/
theorem bomb_out_full {s : Server} (identifier bbuffer x_val y_val : List Nat)
    {c t : Nat} {cn tn : node} {x y : Int}
    (hinv : Inv s) (hl1 : s.list_lock = false) (hl2 : s.log_file_lock = false)
    (hN : 3 ≤ count s) (hc : s.current = some c) (hcn : deref s.heap c = some cn)
    (hid : strncmp cn.identifier identifier 4 = true)
    (ht : cn.next = some t) (htn : deref s.heap t = some tn)
    (hop : operands bbuffer x_val y_val = some (x, y))
    (hhit : x = tn.x_solution ∧ y = tn.y_solution) :
    ∃ n2 nn rest s2, tn.next = some n2 ∧ deref s.heap n2 = some nn ∧
      Ring s.heap (c :: t :: n2 :: rest) ∧
      bomb s identifier bbuffer x_val y_val = some s2 ∧
      Inv s2 ∧ Ring s2.heap (n2 :: (rest ++ [c])) ∧
      s2.current = some n2 ∧
      s2.head = (if s.head = some t then some n2 else s.head) ∧
      s2.list_lock = false ∧ s2.log_file_lock = false ∧
      s2.log_file = s.log_file ++
        [.bombed cn.identifier tn.identifier x y,
         .out cn.identifier tn.identifier tn.identifier cn.identifier
           nn.identifier nn.identifier] ∧
      (∀ q, dataOf s2.heap q = if q = t then none else dataOf s.heap q) := by
  obtain ⟨rest0, tn2, hr, hlen, _⟩ := hinv.ctx_at (by omega) hc hcn ht
  cases rest0 with
  | nil => simp at hlen; omega
  | cons n2 rest =>
    obtain ⟨heap3, nn, hnn, htnn, e, len, hr3, hD⟩ :=
      bomb_out identifier bbuffer x_val y_val hinv hl1 hl2 hc hr hcn htn hid hop hhit
    refine ⟨n2, nn, rest, _, htnn, hnn, hr, e, ?_, hr3, rfl, rfl, rfl, rfl, rfl, hD⟩
    by_cases hht : s.head = some t
    · refine Inv.of_ring hr3 ?_ ?_
      · simp [hht]
      · intro _
        exact ⟨n2, by simp, rfl⟩
    · obtain ⟨hd, t0, hr0, hh⟩ := hinv.head_some (by omega)
      have hdm : hd ∈ ring s := by rw [hr0]; simp
      have hdl : isLive s.heap hd = true := hinv.1.live hd hdm
      have hdt : hd ≠ t := by
        intro e2; rw [e2] at hh; exact hht hh
      have hd3 : hd ∈ n2 :: (rest ++ [c]) := by
        have := (hr.mem_iff hd).mpr hdl
        simp only [List.mem_cons, List.mem_append, List.mem_singleton] at this ⊢
        rcases this with h1 | h1 | h1 | h1
        · exact Or.inr (Or.inr (Or.inl h1))
        · exact absurd h1 hdt
        · exact Or.inl h1
        · exact Or.inr (Or.inl h1)
      obtain ⟨t3, hr4, hperm, _⟩ := hr3.startAt hd3
      refine Inv.of_ring hr4 ?_ ?_
      · simp [hh, hdt]
      · intro _
        exact ⟨n2, hperm.symm.subset (by simp), rfl⟩

/-! ## When a branch returns at all -/

theorem join_some {s s2 : Server} {identifier bbuffer x_val y_val : List Nat} {r1 r2 : Nat}
    (hinv : Inv s) (h : join s identifier bbuffer x_val y_val r1 r2 = some s2) :
    s.list_lock = false ∧ s.log_file_lock = false ∧
      ∃ x y, operands bbuffer x_val y_val = some (x, y) := by
  cases hl1 : s.list_lock with
  | true => simp [join, pthread_mutex_lock, hl1] at h
  | false =>
    cases hop : operands bbuffer x_val y_val with
    | none => simp [join, pthread_mutex_lock, hl1, hop] at h
    | some xy =>
      obtain ⟨x, y⟩ := xy
      refine ⟨rfl, ?_, x, y, rfl⟩
      cases hl2 : s.log_file_lock with
      | false => rfl
      | true =>
        exfalso
        obtain ⟨heap3, e, _, _, _⟩ :=
          @insertHead_ring
            { heap := s.heap, head := s.head, current := s.current, list_lock := true,
              log_file_lock := true, log_file := s.log_file }
            (ring s) hinv.1 hinv.2.1 identifier
            (solution x y r1 r2).1 (solution x y r1 r2).2
        simp [join, pthread_mutex_lock, hl1, hop, hl2, e] at h

theorem turn_locked {s : Server} (cn : node) (bbuffer x_val y_val : List Nat)
    (hl2 : s.log_file_lock = true) : turn s cn bbuffer x_val y_val = none := by
  unfold turn
  cases operands bbuffer x_val y_val with
  | none => rfl
  | some xy =>
    cases load s.heap cn.next with
    | none => rfl
    | some tn =>
      simp only [Option.bind_eq_bind, Option.some_bind, pthread_mutex_lock, fprintf, hl2,
        if_true, Option.none_bind]
      split_ifs <;> rfl

theorem bomb_some {s s2 : Server} {identifier bbuffer x_val y_val : List Nat}
    (hinv : Inv s) (h : bomb s identifier bbuffer x_val y_val = some s2) :
    s.list_lock = false ∧ s.log_file_lock = false := by
  cases hl1 : s.list_lock with
  | true => simp [bomb, pthread_mutex_lock, hl1] at h
  | false =>
    refine ⟨rfl, ?_⟩
    cases hl2 : s.log_file_lock with
    | false => rfl
    | true =>
      exfalso
      rcases Nat.lt_or_ge (count s) 1 with h0 | h0
      · have hh := hinv.head_none (by omega)
        simp [bomb, pthread_mutex_lock, hl1, hl2, hh] at h
      · rcases Nat.lt_or_ge (count s) 2 with h1 | h1
        · obtain ⟨hd, t, hr, hh⟩ := hinv.head_some (by omega)
          have hlen := hinv.count_eq
          have ht : t = [] := by
            cases t with
            | nil => rfl
            | cons b t => rw [hr] at hlen; simp at hlen; omega
          subst ht
          have hring := hinv.1
          rw [hr] at hring
          obtain ⟨hn, hhn, hhnn⟩ := nextOf_eq_some.mp hring.link_single.1
          simp [bomb, pthread_mutex_lock, hl1, hl2, hh, load, hhn, hhnn] at h
        · obtain ⟨c, t, rest, cn, tn, hd, hn, nx, hc, _, _, hcn, _, _, _, hh, _, hhn, hhnn,
            hne⟩ := hinv.turn_ctx h1
          have hto := @turn_locked
            { heap := s.heap, head := s.head, current := s.current, list_lock := true,
              log_file_lock := true, log_file := s.log_file }
            cn bbuffer x_val y_val rfl
          simp [bomb, pthread_mutex_lock, hl1, hl2, hh, load, hhn, hhnn, hne, hc, hcn] at h
          rw [hh, hc] at hto
          by_cases hs : strncmp cn.identifier identifier 4 = true
          · simp [hs, hto] at h
          · simp [hs] at h

/-! ## One connection preserves well-formedness -/

theorem step_inv {s s2 : Server} {i : Input} (hinv : Inv s) (h : step s i = some s2) :
    Inv s2 ∧ ∀ q d, dataOf s2.heap q = some d → Origin s i q d := by
  unfold step at h
  by_cases hj : strncmp i.bbuffer JOIN 4 = true
  · rw [handle_client_JOIN hj] at h
    obtain ⟨hl1, hl2, x, y, hop⟩ := join_some hinv h
    obtain ⟨s3, e, hinv3, _, _, _, _, _, _, hD⟩ :=
      join_full (strncpy i.client_identifier 4) i.bbuffer i.x_val i.y_val i.r1 i.r2
        hinv hl1 hl2 hop
    rw [e] at h
    have e3 : s3 = s2 := Option.some.inj h
    subst e3
    refine ⟨hinv3, ?_⟩
    intro q d hq
    rw [hD] at hq
    by_cases hq2 : q = s.heap.length
    · simp only [hq2, if_true] at hq
      exact Or.inr ⟨hj, x, y, hop, (Option.some.inj hq).symm⟩
    · simp only [hq2, if_false] at hq
      exact Or.inl hq
  · by_cases hb : strncmp i.bbuffer BOMB 4 = true
    · rw [handle_client_BOMB hb] at h
      obtain ⟨hl1, hl2⟩ := bomb_some hinv h
      rcases Nat.lt_or_ge (count s) 1 with h0 | h0
      · rw [bomb_noone _ _ _ _ hinv hl1 hl2 (by omega)] at h
        have e3 := Option.some.inj h
        subst e3
        exact ⟨hinv.congr rfl rfl rfl, fun q d hq => Or.inl hq⟩
      · rcases Nat.lt_or_ge (count s) 2 with h1 | h1
        · rw [bomb_alone _ _ _ _ hinv hl1 hl2 (by omega)] at h
          have e3 := Option.some.inj h
          subst e3
          exact ⟨hinv.congr rfl rfl rfl, fun q d hq => Or.inl hq⟩
        · obtain ⟨c, t, rest, cn, tn, _, _, _, hc, hr, hlen, hcn, hcnn, htn, _, _, _, _, _, _⟩ :=
            hinv.turn_ctx h1
          cases hid : strncmp cn.identifier (strncpy i.client_identifier 4) 4 with
          | false =>
            rw [bomb_not_turn _ _ _ _ hinv hl1 hl2 h1 hc hcn hid] at h
            have e3 := Option.some.inj h
            subst e3
            exact ⟨hinv.congr rfl rfl rfl, fun q d hq => Or.inl hq⟩
          | true =>
            cases hop : operands i.bbuffer i.x_val i.y_val with
            | none =>
              rw [bomb_no_operands _ _ _ _ hinv hl1 hl2 h1 hc hcn hid hop] at h
              exact absurd h (by simp)
            | some xy =>
              obtain ⟨x, y⟩ := xy
              by_cases hhit : x = tn.x_solution ∧ y = tn.y_solution
              · rcases Nat.lt_or_ge (count s) 3 with h2 | h2
                · rw [bomb_win _ _ _ _ hinv hl1 hl2 (by omega) hc hcn hid hcnn htn hop hhit]
                    at h
                  have e3 := Option.some.inj h
                  subst e3
                  exact ⟨hinv.congr rfl rfl rfl, fun q d hq => Or.inl hq⟩
                · obtain ⟨n2, nn, rest2, s3, _, _, _, e, hinv3, _, _, _, _, _, _, hD⟩ :=
                    bomb_out_full (strncpy i.client_identifier 4) i.bbuffer i.x_val i.y_val
                      hinv hl1 hl2 h2 hc hcn hid hcnn htn hop hhit
                  rw [e] at h
                  have e3 : s3 = s2 := Option.some.inj h
                  subst e3
                  refine ⟨hinv3, ?_⟩
                  intro q d hq
                  rw [hD] at hq
                  by_cases hq2 : q = t
                  · simp [hq2] at hq
                  · simp only [hq2, if_false] at hq
                    exact Or.inl hq
              · rw [bomb_miss _ _ _ _ hinv hl1 hl2 h1 hc hcn hid hcnn htn hop hhit] at h
                have e3 := Option.some.inj h
                subst e3
                refine ⟨hinv.set_current rfl rfl rfl ?_, fun q d hq => Or.inl hq⟩
                exact isLive_iff.mpr ⟨tn, htn⟩
    · have e3 : s = s2 := by
        simpa [handle_client, hj, hb] using h
      subst e3
      exact ⟨hinv, fun q d hq => Or.inl hq⟩

theorem inv_init : Inv init := by decide

theorem run_inv : ∀ (is : List Input) {s s2 : Server}, Inv s → run s is = some s2 → Inv s2
  | [], s, s2, hinv, h => by
    have e : s = s2 := by simpa [run] using h
    subst e
    exact hinv
  | i :: is, s, s2, hinv, h => by
    cases hs : step s i with
    | none => simp [run, hs] at h
    | some s1 =>
      have h2 : run s1 is = some s2 := by simpa [run, hs] using h
      exact run_inv is (step_inv hinv hs).1 h2

/-! ## What well-formedness says about traversals -/

theorem Inv.traversal {s : Server} (hinv : Inv s) {p : Nat} (hp : isLive s.heap p = true) :
    (ringFrom s.heap p (count s)).length = count s ∧
    (ringFrom s.heap p (count s)).Nodup ∧
    (∀ q, q ∈ ringFrom s.heap p (count s) ↔ isLive s.heap q = true) ∧
    walk s.heap p (count s) = some p ∧
    (∃ q, nextOf s.heap p = some q ∧ lastOf s.heap q = some p) ∧
    (∃ q, lastOf s.heap p = some q ∧ nextOf s.heap q = some p) := by
  have hpm : p ∈ ring s := (hinv.1.mem_iff p).mpr hp
  obtain ⟨t, hr, _, _⟩ := hinv.1.startAt hpm
  obtain ⟨e1, e2⟩ := hr.ringFrom_eq
  rw [e1]
  refine ⟨hr.length_eq, hr.nodup, fun q => hr.mem_iff q, e2, ?_, ?_⟩
  · cases t with
    | nil => exact ⟨p, hr.link_single⟩
    | cons b t => exact ⟨b, hr.link_head⟩
  · exact ⟨_, hr.link_last.2, hr.link_last.1⟩

theorem Inv.forget_current {s : Server} (hinv : Inv s) (hN : count s < 2)
    (cur : Option Nat) : Inv { s with current := cur } := by
  refine ⟨hinv.1, hinv.2.1, ?_⟩
  intro h2
  have : count { s with current := cur } = count s := rfl
  omega

/-! ## Results -/

/-- C2 (miss). In a well-formed registry with two or more players and both
mutexes free, a BOMB whose sender compares equal to `current->identifier` and
whose decoded operands `(x, y)` differ from the coordinates of `current->next`
returns; the heap (every node and every link) and `head` are unchanged, so the
players and their count are unchanged, and the new `current` is the old
`current->next`, whose successor (the old `current->next->next`) is the new
target. -/
theorem miss_advances_turn (s : Server)
    (client_identifier bbuffer x_val y_val : List Nat) (r1 r2 : Nat)
    (c t : Nat) (cn tn : node) (x y : Int)
    (hinv : Inv s) (hl1 : s.list_lock = false) (hl2 : s.log_file_lock = false)
    (hN : 2 ≤ count s) (hcmd : strncmp bbuffer BOMB 4 = true)
    (hc : s.current = some c) (hcn : deref s.heap c = some cn)
    (hid : strncmp cn.identifier (strncpy client_identifier 4) 4 = true)
    (ht : cn.next = some t) (htn : deref s.heap t = some tn)
    (hop : operands bbuffer x_val y_val = some (x, y))
    (hmiss : ¬ (x = tn.x_solution ∧ y = tn.y_solution)) :
    ∃ s2, handle_client s client_identifier bbuffer x_val y_val r1 r2 = some s2 ∧
      s2.heap = s.heap ∧ s2.head = s.head ∧
      players s2 = players s ∧ count s2 = count s ∧
      s2.current = some t ∧ nextOf s2.heap t = tn.next ∧
      s2.list_lock = false ∧ s2.log_file_lock = false ∧
      s2.log_file = s.log_file ++
        [.bombed cn.identifier tn.identifier x y,
         .missed cn.identifier tn.identifier tn.identifier] := by
  refine ⟨{ s with current := some t,
                   log_file := s.log_file ++
                     [.bombed cn.identifier tn.identifier x y,
                      .missed cn.identifier tn.identifier tn.identifier] },
    ?_, rfl, rfl, rfl, rfl, rfl, ?_, hl1, hl2, rfl⟩
  · rw [handle_client_BOMB hcmd]
    exact bomb_miss _ bbuffer x_val y_val hinv hl1 hl2 hN hc hcn hid ht htn hop hmiss
  · show nextOf s.heap t = tn.next
    simp [nextOf, htn]

/-- C2, the scenario of the specification: A(1,1), B(2,2), C(3,3), `current` = A;
Bomb(A, 9, 9) is a miss, `current` becomes B (address 0) and the target C
(address 2). -/
theorem miss_advances_turn_witness :
    Inv three ∧ 2 ≤ count three ∧
    ∃ s2, handle_client three AAAA (frame BOMB 9 9) zeros zeros 0 0 = some s2 ∧
      s2.heap = three.heap ∧ s2.head = three.head ∧
      players s2 = players three ∧ count s2 = count three ∧
      s2.current = some 0 ∧ nextOf s2.heap 0 = some 2 ∧
      s2.list_lock = false ∧ s2.log_file_lock = false ∧
      s2.log_file = three.log_file ++
        [.bombed AAAA BBBB 9 9, .missed AAAA BBBB BBBB] :=
  ⟨by decide, by decide,
    miss_advances_turn three AAAA (frame BOMB 9 9) zeros zeros 0 0 1 0
      ⟨AAAA, 1, 1, some 0, some 2⟩ ⟨BBBB, 2, 2, some 2, some 1⟩ 9 9
      (by decide) rfl rfl (by decide) (by decide) rfl rfl (by decide) rfl rfl
      (by decide) (by decide)⟩

/-- C4 (win). In a well-formed registry with exactly two players and both
mutexes free, a BOMB by the current player whose decoded operands equal the
coordinates of `current->next` logs the win of `current` and returns with the
registry as it was: same heap (both players, all links), same `head`, same
`current`, still two players. -/
theorem hit_with_two_players_wins (s : Server)
    (client_identifier bbuffer x_val y_val : List Nat) (r1 r2 : Nat)
    (c t : Nat) (cn tn : node) (x y : Int)
    (hinv : Inv s) (hl1 : s.list_lock = false) (hl2 : s.log_file_lock = false)
    (hN : count s = 2) (hcmd : strncmp bbuffer BOMB 4 = true)
    (hc : s.current = some c) (hcn : deref s.heap c = some cn)
    (hid : strncmp cn.identifier (strncpy client_identifier 4) 4 = true)
    (ht : cn.next = some t) (htn : deref s.heap t = some tn)
    (hop : operands bbuffer x_val y_val = some (x, y))
    (hhit : x = tn.x_solution ∧ y = tn.y_solution) :
    ∃ s2, handle_client s client_identifier bbuffer x_val y_val r1 r2 = some s2 ∧
      s2.heap = s.heap ∧ s2.head = s.head ∧ s2.current = s.current ∧
      players s2 = players s ∧ count s2 = 2 ∧
      s2.list_lock = false ∧ s2.log_file_lock = false ∧
      s2.log_file = s.log_file ++
        [.bombed cn.identifier tn.identifier x y,
         .wins cn.identifier tn.identifier cn.identifier] := by
  refine ⟨{ s with log_file := s.log_file ++
                     [.bombed cn.identifier tn.identifier x y,
                      .wins cn.identifier tn.identifier cn.identifier] },
    ?_, rfl, rfl, rfl, rfl, hN, hl1, hl2, rfl⟩
  rw [handle_client_BOMB hcmd]
  exact bomb_win _ bbuffer x_val y_val hinv hl1 hl2 hN hc hcn hid ht htn hop hhit

/-- C4, the scenario of the specification: after Join(AAAA,3,4) and
Join(BBBB,5,6), Bomb(AAAA,5,6) is a win for AAAA and leaves two players. -/
theorem hit_with_two_players_wins_witness :
    run init [⟨AAAA, frame JOIN 3 4, zeros, zeros, 0, 0⟩,
              ⟨BBBB, frame JOIN 5 6, zeros, zeros, 0, 0⟩]
      = some { two with log_file := [.joined AAAA 3 4, .joined BBBB 5 6, .active] } ∧
    Inv two ∧ count two = 2 ∧
    ∃ s2, handle_client two AAAA (frame BOMB 5 6) zeros zeros 0 0 = some s2 ∧
      s2.heap = two.heap ∧ s2.head = two.head ∧ s2.current = two.current ∧
      players s2 = players two ∧ count s2 = 2 ∧
      s2.list_lock = false ∧ s2.log_file_lock = false ∧
      s2.log_file = two.log_file ++ [.bombed AAAA BBBB 5 6, .wins AAAA BBBB AAAA] :=
  ⟨by decide, by decide, by decide,
    hit_with_two_players_wins two AAAA (frame BOMB 5 6) zeros zeros 0 0 0 1
      ⟨AAAA, 3, 4, some 1, some 1⟩ ⟨BBBB, 5, 6, some 0, some 0⟩ 5 6
      (by decide) rfl rfl (by decide) (by decide) rfl rfl (by decide) rfl rfl
      (by decide) (by decide)⟩

/-- Rejected BOMB when both mutexes are free on entry. In a well-formed registry
a BOMB is then rejected, in this order of precedence, (1) with no player by the
line "noone has joined the game yet", (2) with one player by the line "there are
no other players in the game", (3) with two or more players and a sender that
does not compare equal to `current->identifier` by the line "it is not his
turn". The three lines are different, and each time the heap, `head` and
`current` are what they were. In cases (1) and (2) the result is the same for
every value of `current`, also a `NULL` or dangling one, and whatever the sender
is. Case (2) returns with `log_file_lock` held. -/
theorem bomb_rejections (s : Server)
    (client_identifier bbuffer x_val y_val : List Nat) (r1 r2 : Nat)
    (hinv : Inv s) (hl1 : s.list_lock = false) (hl2 : s.log_file_lock = false)
    (hcmd : strncmp bbuffer BOMB 4 = true) :
    (count s = 0 → ∀ cur,
      handle_client { s with current := cur } client_identifier bbuffer x_val y_val r1 r2
        = some { s with current := cur,
                        log_file := s.log_file ++ [.noone (strncpy client_identifier 4)] }) ∧
    (count s = 1 → ∀ cur,
      handle_client { s with current := cur } client_identifier bbuffer x_val y_val r1 r2
        = some { s with current := cur, log_file_lock := true,
                        log_file := s.log_file ++
                          [.no_other_players (strncpy client_identifier 4)] }) ∧
    (2 ≤ count s → ∀ c cn, s.current = some c → deref s.heap c = some cn →
      strncmp cn.identifier (strncpy client_identifier 4) 4 = false →
      handle_client s client_identifier bbuffer x_val y_val r1 r2
        = some { s with log_file := s.log_file ++
                          [.not_his_turn (strncpy client_identifier 4)] }) := by
  refine ⟨?_, ?_, ?_⟩
  · intro h0 cur
    rw [handle_client_BOMB hcmd]
    exact bomb_noone _ bbuffer x_val y_val (hinv.forget_current (by omega) cur) hl1 hl2 h0
  · intro h1 cur
    rw [handle_client_BOMB hcmd]
    exact bomb_alone _ bbuffer x_val y_val (hinv.forget_current (by omega) cur) hl1 hl2 h1
  · intro h2 c cn hc hcn hid
    rw [handle_client_BOMB hcmd]
    exact bomb_not_turn _ bbuffer x_val y_val hinv hl1 hl2 h2 hc hcn hid

/-- Rejected BOMB with both mutexes free, at concrete inputs: a BOMB on the empty
registry, with `current` dangling; a BOMB on the registry holding AAAA alone,
with `current` dangling; and Bomb(B, 1, 1) while `current` is A, rejected as
"not his turn" with the registry unchanged. -/
theorem bomb_rejections_witness :
    (Inv init ∧ count init = 0 ∧
      handle_client { init with current := some 7 } BBBB (frame BOMB 1 1) zeros zeros 0 0
        = some { init with current := some 7,
                           log_file := init.log_file ++ [.noone BBBB] }) ∧
    (Inv one ∧ count one = 1 ∧
      handle_client { one with current := some 7 } BBBB (frame BOMB 1 1) zeros zeros 0 0
        = some { one with current := some 7, log_file_lock := true,
                          log_file := one.log_file ++ [.no_other_players BBBB] }) ∧
    (Inv three ∧ 2 ≤ count three ∧
      handle_client three BBBB (frame BOMB 1 1) zeros zeros 0 0
        = some { three with log_file := three.log_file ++ [.not_his_turn BBBB] }) :=
  ⟨⟨by decide, by decide,
      (bomb_rejections init BBBB (frame BOMB 1 1) zeros zeros 0 0
        (by decide) rfl rfl (by decide)).1 (by decide) (some 7)⟩,
   ⟨by decide, by decide,
      (bomb_rejections one BBBB (frame BOMB 1 1) zeros zeros 0 0
        (by decide) rfl rfl (by decide)).2.1 (by decide) (some 7)⟩,
   ⟨by decide, by decide,
      (bomb_rejections three BBBB (frame BOMB 1 1) zeros zeros 0 0
        (by decide) rfl rfl (by decide)).2.2 (by decide) 1 ⟨AAAA, 1, 1, some 0, some 2⟩
        rfl rfl (by decide)⟩⟩

/-- C3 (elimination). In a well-formed registry with three or more players and
both mutexes free, a BOMB by the current player whose decoded operands equal
the coordinates of the target `t = current->next` returns; afterwards there is
one player less, the node that disappeared is exactly `t` while every other
address keeps its identifier and coordinates, the traversal from the old
`current->next->next` is the old one with `t` (its last element) dropped, and
the new `current` is the old `current->next->next`. -/
theorem hit_eliminates_target (s : Server)
    (client_identifier bbuffer x_val y_val : List Nat) (r1 r2 : Nat)
    (c t : Nat) (cn tn : node) (x y : Int)
    (hinv : Inv s) (hl1 : s.list_lock = false) (hl2 : s.log_file_lock = false)
    (hN : 3 ≤ count s) (hcmd : strncmp bbuffer BOMB 4 = true)
    (hc : s.current = some c) (hcn : deref s.heap c = some cn)
    (hid : strncmp cn.identifier (strncpy client_identifier 4) 4 = true)
    (ht : cn.next = some t) (htn : deref s.heap t = some tn)
    (hop : operands bbuffer x_val y_val = some (x, y))
    (hhit : x = tn.x_solution ∧ y = tn.y_solution) :
    ∃ n2 s2, tn.next = some n2 ∧
      handle_client s client_identifier bbuffer x_val y_val r1 r2 = some s2 ∧
      count s2 + 1 = count s ∧
      (∀ q, dataOf s2.heap q = if q = t then none else dataOf s.heap q) ∧
      (∀ q, isLive s2.heap q = true ↔ (q ≠ t ∧ isLive s.heap q = true)) ∧
      ringFrom s.heap n2 (count s) = ringFrom s2.heap n2 (count s2) ++ [t] ∧
      s2.current = some n2 ∧ Inv s2 ∧
      s2.list_lock = false ∧ s2.log_file_lock = false := by
  obtain ⟨n2, nn, rest, s2, htnn, _, hr, e, hinv2, hr2, hcur, _, hk1, hk2, _, hD⟩ :=
    bomb_out_full (strncpy client_identifier 4) bbuffer x_val y_val
      hinv hl1 hl2 hN hc hcn hid ht htn hop hhit
  refine ⟨n2, s2, htnn, ?_, ?_, hD, ?_, ?_, hcur, hinv2, hk1, hk2⟩
  · rw [handle_client_BOMB hcmd]; exact e
  · rw [← hr2.length_eq, ← hr.length_eq]; simp
  · intro q
    rw [isLive_eq_dataOf, hD, isLive_eq_dataOf]
    by_cases hq : q = t <;> simp [hq]
  · have hr3 : Ring s.heap (n2 :: (rest ++ [c, t])) := by
      have := @Ring.rotate s.heap [c, t] (n2 :: rest) (by simpa using hr)
      simpa using this
    rw [hr3.ringFrom_eq.1, hr2.ringFrom_eq.1]
    simp

/-- C3, the scenario of the specification: A(1,1), B(2,2), C(3,3), `current` = A;
Bomb(A, 2, 2) removes B (address 0), leaves two players and `current` = C
(address 2). -/
theorem hit_eliminates_target_witness :
    Inv three ∧ count three = 3 ∧
    ∃ n2 s2, (some 2 : Option Nat) = some n2 ∧
      handle_client three AAAA (frame BOMB 2 2) zeros zeros 0 0 = some s2 ∧
      count s2 + 1 = count three ∧
      (∀ q, dataOf s2.heap q = if q = 0 then none else dataOf three.heap q) ∧
      (∀ q, isLive s2.heap q = true ↔ (q ≠ 0 ∧ isLive three.heap q = true)) ∧
      ringFrom three.heap n2 (count three) = ringFrom s2.heap n2 (count s2) ++ [0] ∧
      s2.current = some n2 ∧ Inv s2 ∧
      s2.list_lock = false ∧ s2.log_file_lock = false :=
  ⟨by decide, by decide,
    hit_eliminates_target three AAAA (frame BOMB 2 2) zeros zeros 0 0 1 0
      ⟨AAAA, 1, 1, some 0, some 2⟩ ⟨BBBB, 2, 2, some 2, some 1⟩ 2 2
      (by decide) rfl rfl (by decide) (by decide) rfl rfl (by decide) rfl rfl
      (by decide) (by decide)⟩

/-- Game start when both mutexes are free on entry. In a well-formed registry
every JOIN whose operands decode then returns with one player more and the new
node as `head`. If there was exactly one player before, `current` is set to
that pre-existing player (the old `head`, not the new node) and the line "now
active" is logged after the join line; if there were none or two or more,
`current` is left as it was and only the join line is logged. -/
theorem join_starts_game (s : Server)
    (client_identifier bbuffer x_val y_val : List Nat) (r1 r2 : Nat) (x y : Int)
    (hinv : Inv s) (hl1 : s.list_lock = false) (hl2 : s.log_file_lock = false)
    (hcmd : strncmp bbuffer JOIN 4 = true)
    (hop : operands bbuffer x_val y_val = some (x, y)) :
    ∃ s2, handle_client s client_identifier bbuffer x_val y_val r1 r2 = some s2 ∧
      count s2 = count s + 1 ∧ s2.head = some s.heap.length ∧
      (count s = 1 →
        s2.current = s.head ∧ s2.current ≠ s2.head ∧
        (∃ c, s2.current = some c ∧ isLive s.heap c = true) ∧
        s2.log_file = s.log_file ++
          [.joined (strncpy client_identifier 4)
             (solution x y r1 r2).1 (solution x y r1 r2).2, .active]) ∧
      (count s ≠ 1 →
        s2.current = s.current ∧
        s2.log_file = s.log_file ++
          [.joined (strncpy client_identifier 4)
             (solution x y r1 r2).1 (solution x y r1 r2).2]) := by
  obtain ⟨s2, e, hinv2, hring, hhead, hcur, _, _, hlog, _⟩ :=
    join_full (strncpy client_identifier 4) bbuffer x_val y_val r1 r2 hinv hl1 hl2 hop
  refine ⟨s2, ?_, ?_, hhead, ?_, ?_⟩
  · rw [handle_client_JOIN hcmd]; exact e
  · rw [← hinv2.count_eq, hring, ← hinv.count_eq]; simp
  · intro h1
    obtain ⟨h, t, hr, hh⟩ := hinv.head_some (by omega)
    have hlive : isLive s.heap h = true := hinv.1.live h (by rw [hr]; simp)
    have hlt := isLive_lt hlive
    simp only [h1, if_true] at hcur hlog
    refine ⟨hcur, ?_, ⟨h, by rw [hcur, hh], hlive⟩, hlog⟩
    rw [hcur, hhead, hh]
    intro e2
    have := Option.some.inj e2
    omega
  · intro h1
    simp only [h1, if_false] at hcur hlog
    exact ⟨hcur, hlog⟩

/-- Game start with both mutexes free, at concrete inputs: with AAAA(3,4) alone
in the game, Join(BBBB, 0, 0) gives two players with `current` = AAAA, at
address 0; a third player joining the two leaves `current` alone. -/
theorem join_starts_game_witness :
    (Inv one ∧ count one = 1 ∧
      ∃ s2, handle_client one BBBB (frame JOIN 0 0) zeros zeros 4 5 = some s2 ∧
        count s2 = count one + 1 ∧ s2.head = some 1 ∧
        (count one = 1 →
          s2.current = some 0 ∧ s2.current ≠ s2.head ∧
          (∃ c, s2.current = some c ∧ isLive one.heap c = true) ∧
          s2.log_file = one.log_file ++ [.joined BBBB 5 6, .active]) ∧
        (count one ≠ 1 →
          s2.current = one.current ∧
          s2.log_file = one.log_file ++ [.joined BBBB 5 6])) ∧
    (Inv two ∧ count two = 2 ∧
      ∃ s2, handle_client two CCCC (frame JOIN 7 8) zeros zeros 4 5 = some s2 ∧
        count s2 = count two + 1 ∧ s2.head = some 2 ∧
        (count two = 1 →
          s2.current = two.head ∧ s2.current ≠ s2.head ∧
          (∃ c, s2.current = some c ∧ isLive two.heap c = true) ∧
          s2.log_file = two.log_file ++ [.joined CCCC 7 8, .active]) ∧
        (count two ≠ 1 →
          s2.current = some 0 ∧
          s2.log_file = two.log_file ++ [.joined CCCC 7 8])) :=
  ⟨⟨by decide, by decide,
      join_starts_game one BBBB (frame JOIN 0 0) zeros zeros 4 5 0 0
        (by decide) rfl rfl (by decide) (by decide)⟩,
   ⟨by decide, by decide,
      join_starts_game two CCCC (frame JOIN 7 8) zeros zeros 4 5 7 8
        (by decide) rfl rfl (by decide) (by decide)⟩⟩

/-- C7 (JOIN coordinates). In a well-formed registry with both mutexes free a
JOIN whose operands decode to `(x, y)` inserts, at a fresh address that becomes
`head`, a node with the sender's identifier and coordinates `(X, Y)`: if
`x = 0` and `y = 0` these are `(r1 % 10 + 1, r2 % 10 + 1)` for the two results
`r1`, `r2` of `rand()`, both in `[1,10]`; otherwise (also when only one of `x`,
`y` is zero) they are `(x, y)`. -/
theorem join_assigns_coordinates (s : Server)
    (client_identifier bbuffer x_val y_val : List Nat) (r1 r2 : Nat) (x y : Int)
    (hinv : Inv s) (hl1 : s.list_lock = false) (hl2 : s.log_file_lock = false)
    (hcmd : strncmp bbuffer JOIN 4 = true)
    (hop : operands bbuffer x_val y_val = some (x, y)) :
    ∃ s2 X Y, handle_client s client_identifier bbuffer x_val y_val r1 r2 = some s2 ∧
      s2.head = some s.heap.length ∧ isLive s.heap s.heap.length = false ∧
      dataOf s2.heap s.heap.length = some (strncpy client_identifier 4, X, Y) ∧
      (x = 0 ∧ y = 0 →
        X = (r1 : Int) % 10 + 1 ∧ Y = (r2 : Int) % 10 + 1 ∧
        1 ≤ X ∧ X ≤ 10 ∧ 1 ≤ Y ∧ Y ≤ 10) ∧
      (¬ (x = 0 ∧ y = 0) → X = x ∧ Y = y) := by
  obtain ⟨s2, e, _, _, hhead, _, _, _, _, hD⟩ :=
    join_full (strncpy client_identifier 4) bbuffer x_val y_val r1 r2 hinv hl1 hl2 hop
  refine ⟨s2, (solution x y r1 r2).1, (solution x y r1 r2).2, ?_, hhead, ?_, ?_, ?_, ?_⟩
  · rw [handle_client_JOIN hcmd]; exact e
  · cases hl : isLive s.heap s.heap.length with
    | false => rfl
    | true => exact absurd (isLive_lt hl) (lt_irrefl _)
  · rw [hD]; simp
  · intro h0
    simp only [solution, h0, and_self, if_true]
    refine ⟨by norm_num, by norm_num, ?_, ?_, ?_, ?_⟩ <;> omega
  · intro h0
    simp [solution, h0]

/-- C7 at concrete inputs: the first JOIN with operands (0, 0) and `rand()`
returning 13 then 27 stores (4, 8); the same JOIN with operands (0, 7) stores
(0, 7). -/
theorem join_assigns_coordinates_witness :
    (∃ s2 X Y, handle_client init AAAA (frame JOIN 0 0) zeros zeros 13 27 = some s2 ∧
      s2.head = some 0 ∧ isLive init.heap 0 = false ∧
      dataOf s2.heap 0 = some (AAAA, X, Y) ∧
      ((0 : Int) = 0 ∧ (0 : Int) = 0 →
        X = ((13 : Nat) : Int) % 10 + 1 ∧ Y = ((27 : Nat) : Int) % 10 + 1 ∧
        1 ≤ X ∧ X ≤ 10 ∧ 1 ≤ Y ∧ Y ≤ 10) ∧
      (¬ ((0 : Int) = 0 ∧ (0 : Int) = 0) → X = 0 ∧ Y = 0)) ∧
    (∃ s2 X Y, handle_client init AAAA (frame JOIN 0 7) zeros zeros 13 27 = some s2 ∧
      s2.head = some 0 ∧ isLive init.heap 0 = false ∧
      dataOf s2.heap 0 = some (AAAA, X, Y) ∧
      ((0 : Int) = 0 ∧ (7 : Int) = 0 →
        X = ((13 : Nat) : Int) % 10 + 1 ∧ Y = ((27 : Nat) : Int) % 10 + 1 ∧
        1 ≤ X ∧ X ≤ 10 ∧ 1 ≤ Y ∧ Y ≤ 10) ∧
      (¬ ((0 : Int) = 0 ∧ (7 : Int) = 0) → X = 0 ∧ Y = 7)) ∧
    (handle_client init AAAA (frame JOIN 0 0) zeros zeros 13 27).map
      (fun s2 => dataOf s2.heap 0) = some (some (AAAA, 4, 8)) ∧
    (handle_client init AAAA (frame JOIN 0 7) zeros zeros 13 27).map
      (fun s2 => dataOf s2.heap 0) = some (some (AAAA, 0, 7)) :=
  ⟨join_assigns_coordinates init AAAA (frame JOIN 0 0) zeros zeros 13 27 0 0
      (by decide) rfl rfl (by decide) (by decide),
   join_assigns_coordinates init AAAA (frame JOIN 0 7) zeros zeros 13 27 0 7
      (by decide) rfl rfl (by decide) (by decide),
   by decide, by decide⟩

/-- C1 (registry invariant). Start from the empty registry and let
`handle_client` handle any finite sequence of connections one at a time (JOIN,
BOMB or anything else, with any scratch content and any `rand()` results). In
the state after the last handler has returned, with `N` the number of live
nodes: from every live node the traversal of `next` has `N` distinct entries,
which are exactly the live nodes, and `N` steps of `next` lead back to the
start; `last` undoes `next` and `next` undoes `last`; and if `N >= 2` then
`current` points to a live node. -/
theorem ring_invariant (is : List Input) (s : Server) (h : run init is = some s) :
    (∀ p, isLive s.heap p = true →
      (ringFrom s.heap p (count s)).length = count s ∧
      (ringFrom s.heap p (count s)).Nodup ∧
      (∀ q, q ∈ ringFrom s.heap p (count s) ↔ isLive s.heap q = true) ∧
      walk s.heap p (count s) = some p ∧
      (∃ q, nextOf s.heap p = some q ∧ lastOf s.heap q = some p) ∧
      (∃ q, lastOf s.heap p = some q ∧ nextOf s.heap q = some p)) ∧
    (2 ≤ count s → ∃ c, s.current = some c ∧ isLive s.heap c = true) := by
  have hinv : Inv s := run_inv is inv_init h
  refine ⟨fun p hp => hinv.traversal hp, ?_⟩
  intro h2
  obtain ⟨c, hcm, hc⟩ := hinv.2.2 h2
  exact ⟨c, hc, hinv.1.live c hcm⟩

/-- C1 on the six connections of `game`. -/
theorem ring_invariant_witness :
    run init game = some game_over ∧
    (∀ p, isLive game_over.heap p = true →
      (ringFrom game_over.heap p (count game_over)).length = count game_over ∧
      (ringFrom game_over.heap p (count game_over)).Nodup ∧
      (∀ q, q ∈ ringFrom game_over.heap p (count game_over) ↔
        isLive game_over.heap q = true) ∧
      walk game_over.heap p (count game_over) = some p ∧
      (∃ q, nextOf game_over.heap p = some q ∧ lastOf game_over.heap q = some p) ∧
      (∃ q, lastOf game_over.heap p = some q ∧ nextOf game_over.heap q = some p)) ∧
    (2 ≤ count game_over → ∃ c, game_over.current = some c ∧
      isLive game_over.heap c = true) :=
  ⟨by decide, ring_invariant game game_over (by decide)⟩

/-- C8 (operand decoding), the behaviour of the code. The second copy loop
writes every byte of the y field to `y_val[0]`, so after it `y_val[0]` is byte 19
of the message and the other cells are what they were before; with scratch
arrays full of NUL bytes the frame "JOIN" "00000003" "00000012" decodes to
(3, 2), not (3, 12), and the player is stored with coordinates (3, 2). The
x array gets no terminator either: with a digit left in `x_val[8]` the scan of
`atoi` leaves the array. -/
theorem y_operand_is_last_byte :
    (∀ bbuffer y_val : List Nat, copy_y bbuffer y_val = y_val.set 0 (bbuffer.getD 19 0)) ∧
    operands (frame JOIN 3 12) zeros zeros = some (3, 2) ∧
    (handle_client init AAAA (frame JOIN 3 12) zeros zeros 0 0).map
      (fun s => dataOf s.heap 0) = some (some (AAAA, 3, 2)) ∧
    operands (frame JOIN 3 12) (List.replicate 8 0 ++ [55]) zeros = none := by
  refine ⟨?_, by decide, by decide, by decide⟩
  intro bbuffer y_val
  simp [copy_y, List.range', List.set_set]

/-- C10 (lock balance), the behaviour of the code. With one player in the game
and both mutexes free, a BOMB returns with `list_lock` free and `log_file_lock`
still held; the handler of the next JOIN then never returns. -/
theorem single_player_bomb_keeps_log_file_lock :
    handle_client one AAAA (frame BOMB 1 1) zeros zeros 0 0
      = some { one with log_file_lock := true, log_file := [.no_other_players AAAA] } ∧
    handle_client { one with log_file_lock := true, log_file := [.no_other_players AAAA] }
      BBBB (frame JOIN 5 6) zeros zeros 0 0 = none := by
  decide

/-- C5 (rejected BOMB), the behaviour of the code. After JOIN AAAA(3,4) and a
BOMB from AAAA the registry is well formed with one player, `list_lock` is free
and `log_file_lock` is still held (the final `else` of the BOMB branch, lines
254-259, does not unlock it). On this state a further BOMB takes `list_lock`,
reaches line 255 and blocks there: the handler does not return, no line is
written, and no "insufficient players" outcome is produced. -/
theorem second_single_player_bomb_blocks :
    run init lonely_bomb = some leaked ∧
    Inv leaked ∧ count leaked = 1 ∧
    leaked.list_lock = false ∧ leaked.log_file_lock = true ∧
    handle_client leaked BBBB (frame BOMB 1 1) zeros zeros 0 0 = none ∧
    handle_client leaked AAAA (frame BOMB 1 1) zeros zeros 0 0 = none ∧
    ((pthread_mutex_lock leaked .list_lock).map
      (fun s => (s.log_file, pthread_mutex_lock s .log_file_lock)))
      = some ([.joined AAAA 3 4, .no_other_players AAAA], none) := by
  decide

/-- C6 (game start), the behaviour of the code. After JOIN AAAA(3,4) and a BOMB
from AAAA there is one player and `log_file_lock` is still held (lines 254-259).
On this state Join(BBBB, 5, 6) takes `list_lock` and runs `insertHead` (line
133), which leaves two players with `current` still `NULL`; it then blocks at
line 135, so the handler does not return, line 143 never sets `current` and the
"now active" line is never written. -/
theorem join_after_single_player_bomb_blocks :
    run init lonely_bomb = some leaked ∧
    Inv leaked ∧ count leaked = 1 ∧
    handle_client leaked BBBB (frame JOIN 5 6) zeros zeros 0 0 = none ∧
    ((pthread_mutex_lock leaked .list_lock).bind
      (fun s => insertHead s BBBB 5 6)).map
      (fun s => (count s, s.current, s.log_file, pthread_mutex_lock s .log_file_lock))
      = some (2, none, [.joined AAAA 3 4, .no_other_players AAAA], none) := by
  decide

/-! ## Coordinates in range -/

theorem solution_range {x y : Int} (r1 r2 : Nat)
    (h : operandsInRange (some (x, y)) = true) :
    1 ≤ (solution x y r1 r2).1 ∧ (solution x y r1 r2).1 ≤ 10 ∧
      1 ≤ (solution x y r1 r2).2 ∧ (solution x y r1 r2).2 ≤ 10 := by
  unfold solution
  by_cases h0 : x = 0 ∧ y = 0
  · simp only [h0, and_self, if_true]
    refine ⟨?_, ?_, ?_, ?_⟩ <;> omega
  · simp only [h0, if_false]
    simp only [operandsInRange, Bool.or_eq_true, Bool.and_eq_true, decide_eq_true_eq] at h
    rcases h with h | h
    · exact absurd h h0
    · exact ⟨h.1.1.1, h.1.1.2, h.1.2, h.2⟩

theorem run_ranged : ∀ (is : List Input) {s s2 : Server}, Inv s → Ranged s →
    JoinsInRange is → run s is = some s2 → Ranged s2
  | [], s, s2, _, hr, _, h => by
    have e : s = s2 := by simpa [run] using h
    subst e
    exact hr
  | i :: is, s, s2, hinv, hr, hj, h => by
    cases hs : step s i with
    | none => simp [run, hs] at h
    | some s1 =>
      have h2 : run s1 is = some s2 := by simpa [run, hs] using h
      obtain ⟨hinv1, horigin⟩ := step_inv hinv hs
      refine run_ranged is hinv1 ?_ (fun j hjm => hj j (List.mem_cons_of_mem _ hjm)) h2
      intro q identifier X Y hq
      rcases horigin q _ hq with h3 | ⟨hcmd, x, y, hop, hd⟩
      · exact hr q identifier X Y h3
      · have hin := hj i (List.mem_cons_self _ _) hcmd
        rw [hop] at hin
        have hsol := solution_range i.r1 i.r2 hin
        have e1 : X = (solution x y i.r1 i.r2).1 := by
          have := congrArg (fun d => d.2.1) hd
          simpa using this
        have e2 : Y = (solution x y i.r1 i.r2).2 := by
          have := congrArg (fun d => d.2.2) hd
          simpa using this
        rw [e1, e2]
        exact hsol

/-- C9 as stated fails: the single connection JOIN with operands (50, 3) leaves a
live player whose `x_solution` is 50. -/
theorem coordinate_range_fails :
    ¬ (∀ (is : List Input) (s : Server), run init is = some s →
        ∀ q identifier X Y, dataOf s.heap q = some (identifier, X, Y) →
          1 ≤ X ∧ X ≤ 10 ∧ 1 ≤ Y ∧ Y ≤ 10) := by
  intro h
  have h1 := h [⟨AAAA, frame JOIN 50 3, zeros, zeros, 0, 0⟩]
    { heap := [some ⟨AAAA, 50, 3, some 0, some 0⟩], head := some 0, current := none,
      list_lock := false, log_file_lock := false, log_file := [.joined AAAA 50 3] }
    (by decide) 0 AAAA 50 3 (by decide)
  omega

/-- C9 (coordinate range), amended. Start from the empty registry and let
`handle_client` handle any finite sequence of connections in which every JOIN
has decoded operands that are both zero or both in `[1,10]`. In the state after
the last handler has returned every live player has `x_solution` and
`y_solution` in `[1,10]`. -/
theorem coordinates_in_range (is : List Input) (s : Server)
    (hjoin : JoinsInRange is) (h : run init is = some s) :
    ∀ q identifier X Y, dataOf s.heap q = some (identifier, X, Y) →
      1 ≤ X ∧ X ≤ 10 ∧ 1 ≤ Y ∧ Y ≤ 10 := by
  refine run_ranged is inv_init ?_ hjoin h
  intro q identifier X Y hq
  simp [dataOf, deref, init] at hq

/-- C9 amended, on the six connections of `game`. -/
theorem coordinates_in_range_witness :
    JoinsInRange game ∧ run init game = some game_over ∧
    ∀ q identifier X Y, dataOf game_over.heap q = some (identifier, X, Y) →
      1 ≤ X ∧ X ≤ 10 ∧ 1 ≤ Y ∧ Y ≤ 10 :=
  ⟨by decide, by decide, coordinates_in_range game game_over (by decide) (by decide)⟩

end Battleship
